import Mathlib

/-!
Verification of the core of the kopye project scaffolder.

The development shallowly embeds the parts of the source the claims are
about:

* `src/transactions.rs` — the typestate transaction with its LIFO rollback
  of recorded undo operations (`RemoveFile` / `RemoveDir`), over an explicit
  model of the on-disk state below the destination root;
* `src/template.rs` — `render_path_segments`, `build_vfs` and `apply_vfs`
  (the latter as the list of primitive mutations it performs);
* `src/prompt.rs` — `check_dependency`, `adjacency_list_from_file`,
  `stablize_topological_order` and the pure pipeline prefix of `get_answers`;
* `tampopo/src/lib.rs` — `sort_graph`, Kahn's algorithm whose queue is
  seeded by iterating a hash map; the iteration order of that map is an
  explicit `seed` parameter here.
-/

namespace Kopye

/-- Filesystem paths relative to the destination root, as component lists;
`[]` is the destination root itself. -/
abbrev FsPath := List String

/-- Model of the on-disk state at and below the destination root: the set of
directories and the set of files (path with contents). -/
structure Fs where
  dirs : Finset FsPath
  files : Finset (FsPath × String)
deriving DecidableEq

/-- `transactions.rs`: the undo operations a transaction records. -/
inductive RollbackOperation where
  | RemoveFile (path : FsPath)
  | RemoveDir (path : FsPath)
deriving DecidableEq, Repr

/-- `fs::remove_file`: deletes the single file at `p`; if there is no file at
`p` the error is swallowed and nothing changes. -/
def Fs.removeFileAt (fs : Fs) (p : FsPath) : Fs :=
  { fs with files := fs.files.filter (fun e => e.1 ≠ p) }

/-- `fs::remove_dir_all`: recursively removes the directory at `p` and
everything under it; on a path that is not a directory the error is swallowed
and nothing changes. -/
def Fs.removeDirAllAt (fs : Fs) (p : FsPath) : Fs :=
  if p ∈ fs.dirs then
    { dirs := fs.dirs.filter (fun d => ¬ p <+: d),
      files := fs.files.filter (fun e => ¬ p <+: e.1) }
  else fs

/-- One step of the rollback loop in `Transaction::drop`. -/
def applyRollbackOperation (fs : Fs) : RollbackOperation → Fs
  | .RemoveDir p => fs.removeDirAllAt p
  | .RemoveFile p => fs.removeFileAt p

/-- The rollback loop of `Transaction::drop`: `rollback_operations.pop()`
until empty, i.e. the recorded operations are executed in reverse (LIFO)
order of recording. -/
def runRollback (ops : List RollbackOperation) (fs : Fs) : Fs :=
  ops.reverse.foldl applyRollbackOperation fs

/-- The typestate parameter of `Transaction<State>`. -/
inductive TransactionState where
  | Active
  | Committed
  | Canceled
deriving DecidableEq, Repr

/-- The `TransactionState::SHOULD_ROLLBACK` associated constant. -/
def TransactionState.shouldRollback : TransactionState → Bool
  | .Active => true
  | .Committed => false
  | .Canceled => true

/-- `Transaction`: the recorded undo log (the phantom state parameter is
passed separately to `Transaction.dropEffect`). -/
structure Transaction where
  rollback_operations : List RollbackOperation
deriving DecidableEq, Repr

def Transaction.new : Transaction := ⟨[]⟩

/-- `Transaction::add_operation`: pushes onto the undo log. -/
def Transaction.add_operation (t : Transaction) (op : RollbackOperation) : Transaction :=
  ⟨t.rollback_operations ++ [op]⟩

/-- `Transaction::commit`: clears the undo log and returns the committed
transaction (which itself holds an empty log). -/
def Transaction.commit (_t : Transaction) : Transaction := ⟨[]⟩

/-- `Transaction::cancel`: keeps the undo log for rollback on drop. -/
def Transaction.cancel (t : Transaction) : Transaction := ⟨t.rollback_operations⟩

/-- Effect of `Drop for Transaction<S>` on the filesystem: rolls back iff
`S::SHOULD_ROLLBACK` holds and the undo log is nonempty. -/
def Transaction.dropEffect (s : TransactionState) (t : Transaction) (fs : Fs) : Fs :=
  if s.shouldRollback && !t.rollback_operations.isEmpty then
    runRollback t.rollback_operations fs
  else fs

/-- C8: after commit the undo log is empty, and dropping the committed
transaction performs zero filesystem mutations, even when undo operations
had been recorded before the commit. -/
theorem commit_clears_log_and_drop_is_noop (ops : List RollbackOperation) (fs : Fs) :
    (Transaction.commit ⟨ops⟩).rollback_operations = [] ∧
    Transaction.dropEffect .Committed (Transaction.commit ⟨ops⟩) fs = fs := by
  constructor
  · rfl
  · simp [Transaction.dropEffect, TransactionState.shouldRollback]

/-! ## The virtual filesystem and `apply_vfs` (`src/vfs.rs`, `src/template.rs`) -/

/-- `vfs.rs`: a staged file or directory entry. -/
structure VirtualEntry where
  destination : Option FsPath
  content : Option String
  is_file : Bool
deriving DecidableEq, Repr

/-- `vfs.rs`: the staged output tree, in builder-traversal order. -/
structure VirtualFS where
  entries : List VirtualEntry
deriving DecidableEq, Repr

/-- The two primitive disk mutations `apply_vfs` performs (through
`create_directory` and `write_file`). -/
inductive PrimOp where
  | MkDirAll (p : FsPath)
  | WriteFile (p : FsPath) (c : String)
deriving DecidableEq, Repr

/-- `fs::create_dir_all`: creates the directory at `p` together with every
missing ancestor (up to and including the destination root `[]`). -/
def Fs.createDirAll (fs : Fs) (p : FsPath) : Fs :=
  { fs with dirs := fs.dirs ∪ p.inits.toFinset }

/-- `fs::write`: creates the file at `p`, replacing any previous contents. -/
def Fs.writeFile (fs : Fs) (p : FsPath) (c : String) : Fs :=
  { fs with files := insert (p, c) (fs.files.filter (fun e => e.1 ≠ p)) }

def execPrim (fs : Fs) : PrimOp → Fs
  | .MkDirAll p => fs.createDirAll p
  | .WriteFile p c => fs.writeFile p c

/-- The undo operation `create_directory` / `write_file` records for each
mutation. -/
def undoOfPrim : PrimOp → RollbackOperation
  | .MkDirAll p => .RemoveDir p
  | .WriteFile p _ => .RemoveFile p

def execAll (ops : List PrimOp) (fs : Fs) : Fs := ops.foldl execPrim fs

/-- The undo log after performing `ops`, in the order mutations happened. -/
def undoLog (ops : List PrimOp) : List RollbackOperation := ops.map undoOfPrim

/-- One step of `apply_vfs`: perform the mutation and push its undo
operation, exactly as `create_directory` and `write_file` do. -/
def applyStep (s : Fs × Transaction) (op : PrimOp) : Fs × Transaction :=
  (execPrim s.1 op, s.2.add_operation (undoOfPrim op))

/-- Running a list of primitive mutations from a fresh `Transaction`,
as `apply_vfs` does. -/
def applyPrims (ops : List PrimOp) (fs : Fs) : Fs × Transaction :=
  ops.foldl applyStep (fs, Transaction.new)

/-- The directory destinations of a `VirtualFS`, in order (entries with no
destination are skipped by `apply_vfs`). -/
def dirDests (vfs : VirtualFS) : List FsPath :=
  (vfs.entries.filter (fun e => !e.is_file)).filterMap (·.destination)

/-- The file destinations of a `VirtualFS` with their contents
(`content.clone().unwrap_or_default()`), in order. -/
def fileDests (vfs : VirtualFS) : List (FsPath × String) :=
  (vfs.entries.filter (fun e => e.is_file)).filterMap
    (fun e => e.destination.map (fun p => (p, e.content.getD "")))

/-- The sequence of primitive mutations `apply_vfs` performs: first every
directory entry is created, then for every file entry its immediate parent
directory is created on demand and the file is written.  (For the degenerate
file destination `[]` the parent lies above the destination root and outside
this model; the theorems below exclude it.) -/
def fileOpsOf (pc : FsPath × String) : List PrimOp :=
  (if pc.1 = [] then [] else [PrimOp.MkDirAll pc.1.dropLast]) ++
    [PrimOp.WriteFile pc.1 pc.2]

def applyVfsOps (vfs : VirtualFS) : List PrimOp :=
  (dirDests vfs).map .MkDirAll ++ (fileDests vfs).flatMap fileOpsOf

/-! ### Characterizing rollback and apply -/

/-- The `RemoveDir` targets of an undo log. -/
def rdTargets (u : List RollbackOperation) : List FsPath :=
  u.filterMap (fun op => match op with | .RemoveDir p => some p | _ => none)

/-- The `RemoveFile` targets of an undo log. -/
def rfTargets (u : List RollbackOperation) : List FsPath :=
  u.filterMap (fun op => match op with | .RemoveFile p => some p | _ => none)

/-- The `MkDirAll` targets of a mutation list. -/
def mkTargets (ops : List PrimOp) : List FsPath :=
  ops.filterMap (fun op => match op with | .MkDirAll p => some p | _ => none)

/-- The `WriteFile` path/content pairs of a mutation list. -/
def writesOf (ops : List PrimOp) : List (FsPath × String) :=
  ops.filterMap (fun op => match op with | .WriteFile p c => some (p, c) | _ => none)

/-- The order-independent description of what a rollback removes: every
directory or file dominated by a `RemoveDir` target, and every file whose
path is a `RemoveFile` target. -/
def removeSet (u : List RollbackOperation) (fs : Fs) : Fs :=
  { dirs := fs.dirs.filter (fun d => ¬ ∃ p ∈ rdTargets u, p <+: d),
    files := fs.files.filter
      (fun e => (¬ ∃ p ∈ rdTargets u, p <+: e.1) ∧ e.1 ∉ rfTargets u) }

theorem runRollback_cons (u : RollbackOperation) (us : List RollbackOperation) (fs : Fs) :
    runRollback (u :: us) fs = applyRollbackOperation (runRollback us fs) u := by
  simp [runRollback, List.foldl_append]

theorem rdTargets_undoLog (ops : List PrimOp) : rdTargets (undoLog ops) = mkTargets ops := by
  unfold rdTargets undoLog mkTargets
  rw [List.filterMap_map]
  congr 1
  funext op
  cases op <;> rfl

theorem rfTargets_undoLog (ops : List PrimOp) :
    rfTargets (undoLog ops) = (writesOf ops).map (·.1) := by
  unfold rfTargets undoLog writesOf
  rw [List.filterMap_map, ← List.filterMap_eq_map, List.filterMap_filterMap]
  congr 1
  funext op
  cases op <;> rfl

theorem rdTargets_cons_rf (q : FsPath) (us : List RollbackOperation) :
    rdTargets (.RemoveFile q :: us) = rdTargets us := rfl

theorem rdTargets_cons_rd (q : FsPath) (us : List RollbackOperation) :
    rdTargets (.RemoveDir q :: us) = q :: rdTargets us := rfl

theorem rfTargets_cons_rf (q : FsPath) (us : List RollbackOperation) :
    rfTargets (.RemoveFile q :: us) = q :: rfTargets us := rfl

theorem rfTargets_cons_rd (q : FsPath) (us : List RollbackOperation) :
    rfTargets (.RemoveDir q :: us) = rfTargets us := rfl

theorem mem_rdTargets_cons {p : FsPath} {us : List RollbackOperation}
    (op : RollbackOperation) (h : p ∈ rdTargets us) : p ∈ rdTargets (op :: us) := by
  cases op with
  | RemoveFile q => rw [rdTargets_cons_rf]; exact h
  | RemoveDir q => rw [rdTargets_cons_rd]; exact List.mem_cons_of_mem q h

/-- Rollback removes exactly: everything dominated by a `RemoveDir` target and
every file at a `RemoveFile` target, independently of execution order —
provided every `RemoveDir` target is a directory (and not a file) in the
starting state. -/
theorem runRollback_eq_removeSet (u : List RollbackOperation) (fs : Fs)
    (hd : ∀ p ∈ rdTargets u, p ∈ fs.dirs)
    (hf : ∀ p ∈ rdTargets u, ∀ e ∈ fs.files, e.1 ≠ p) :
    runRollback u fs = removeSet u fs := by
  induction u with
  | nil =>
    simp [runRollback, removeSet, rdTargets, rfTargets]
  | cons op us ih =>
    have hd_us : ∀ p ∈ rdTargets us, p ∈ fs.dirs :=
      fun p hp => hd p (mem_rdTargets_cons op hp)
    have hf_us : ∀ p ∈ rdTargets us, ∀ e ∈ fs.files, e.1 ≠ p :=
      fun p hp => hf p (mem_rdTargets_cons op hp)
    rw [runRollback_cons, ih hd_us hf_us]
    cases op with
    | RemoveFile q =>
      show (removeSet us fs).removeFileAt q = _
      unfold removeSet Fs.removeFileAt
      rw [Fs.mk.injEq, rdTargets_cons_rf, rfTargets_cons_rf]
      refine ⟨rfl, ?_⟩
      rw [Finset.filter_filter]
      apply Finset.filter_congr
      intro e _
      simp only [List.mem_cons]
      tauto
    | RemoveDir q =>
      have hqdir : q ∈ rdTargets (RollbackOperation.RemoveDir q :: us) := by
        rw [rdTargets_cons_rd]; exact List.mem_cons_self q _
      show (removeSet us fs).removeDirAllAt q = _
      by_cases hq : ∃ p ∈ rdTargets us, p <+: q
      · -- q was already removed by a later-recorded RemoveDir: this step is a no-op
        have hnot : q ∉ (removeSet us fs).dirs := by
          unfold removeSet
          simp only [Finset.mem_filter, not_and, not_not]
          intro _
          exact hq
        unfold Fs.removeDirAllAt
        rw [if_neg hnot]
        unfold removeSet
        rw [Fs.mk.injEq, rdTargets_cons_rd, rfTargets_cons_rd]
        obtain ⟨p0, hp0, hp0q⟩ := hq
        have hdom : ∀ d : FsPath, (¬ ∃ p ∈ rdTargets us, p <+: d) →
            (¬ ∃ p ∈ q :: rdTargets us, p <+: d) := by
          rintro d h ⟨p, hp, hpd⟩
          rcases List.mem_cons.mp hp with hp | hp
          · exact h ⟨p0, hp0, hp0q.trans (hp ▸ hpd)⟩
          · exact h ⟨p, hp, hpd⟩
        have hdom' : ∀ d : FsPath, (¬ ∃ p ∈ q :: rdTargets us, p <+: d) →
            (¬ ∃ p ∈ rdTargets us, p <+: d) := by
          rintro d h ⟨p, hp, hpd⟩
          exact h ⟨p, List.mem_cons_of_mem q hp, hpd⟩
        constructor
        · apply Finset.filter_congr
          intro d _
          exact ⟨hdom d, hdom' d⟩
        · apply Finset.filter_congr
          intro e _
          exact ⟨fun ⟨h1, h2⟩ => ⟨hdom e.1 h1, h2⟩, fun ⟨h1, h2⟩ => ⟨hdom' e.1 h1, h2⟩⟩
      · -- q is still present: remove its whole subtree now
        have hmem : q ∈ (removeSet us fs).dirs := by
          unfold removeSet
          rw [Finset.mem_filter]
          exact ⟨hd q hqdir, hq⟩
        unfold Fs.removeDirAllAt
        rw [if_pos hmem]
        unfold removeSet
        rw [Fs.mk.injEq, rdTargets_cons_rd, rfTargets_cons_rd]
        have hiff : ∀ d : FsPath,
            ((¬ ∃ p ∈ rdTargets us, p <+: d) ∧ ¬ q <+: d) ↔
            (¬ ∃ p ∈ q :: rdTargets us, p <+: d) := by
          intro d
          constructor
          · rintro ⟨h1, h2⟩ ⟨p, hp, hpd⟩
            rcases List.mem_cons.mp hp with hp | hp
            · exact h2 (hp ▸ hpd)
            · exact h1 ⟨p, hp, hpd⟩
          · intro h
            exact ⟨fun ⟨p, hp, hpd⟩ => h ⟨p, List.mem_cons_of_mem q hp, hpd⟩,
              fun hqd => h ⟨q, List.mem_cons_self q _, hqd⟩⟩
        constructor
        · rw [Finset.filter_filter]
          apply Finset.filter_congr
          intro d _
          exact hiff d
        · rw [Finset.filter_filter]
          apply Finset.filter_congr
          intro e _
          exact ⟨fun ⟨⟨h1, h2⟩, h3⟩ => ⟨(hiff e.1).mp ⟨h1, h3⟩, h2⟩,
            fun ⟨h1, h2⟩ => ⟨⟨((hiff e.1).mpr h1).1, h2⟩, ((hiff e.1).mpr h1).2⟩⟩

theorem mkTargets_cons_mk (p : FsPath) (ops : List PrimOp) :
    mkTargets (.MkDirAll p :: ops) = p :: mkTargets ops := rfl

theorem mkTargets_cons_wf (p : FsPath) (c : String) (ops : List PrimOp) :
    mkTargets (.WriteFile p c :: ops) = mkTargets ops := rfl

theorem writesOf_cons_mk (p : FsPath) (ops : List PrimOp) :
    writesOf (.MkDirAll p :: ops) = writesOf ops := rfl

theorem writesOf_cons_wf (p : FsPath) (c : String) (ops : List PrimOp) :
    writesOf (.WriteFile p c :: ops) = (p, c) :: writesOf ops := rfl

theorem execAll_cons (op : PrimOp) (ops : List PrimOp) (fs : Fs) :
    execAll (op :: ops) fs = execAll ops (execPrim fs op) := rfl

/-- Closed form of performing a mutation list: all created directory chains
and all written files are added, nothing is removed — provided writes are
fresh (no staged file path collides with an existing or another staged
file). -/
theorem execAll_eq (ops : List PrimOp) (fs : Fs)
    (hfresh : ∀ e ∈ writesOf ops, ∀ e' ∈ fs.files, e'.1 ≠ e.1)
    (hnodup : ((writesOf ops).map (·.1)).Nodup) :
    execAll ops fs =
      { dirs := fs.dirs ∪ ((mkTargets ops).flatMap List.inits).toFinset,
        files := fs.files ∪ (writesOf ops).toFinset } := by
  induction ops generalizing fs with
  | nil =>
    simp [execAll, mkTargets, writesOf]
  | cons op rest ih =>
    cases op with
    | MkDirAll p =>
      rw [execAll_cons]
      show execAll rest (fs.createDirAll p) = _
      rw [ih (fs.createDirAll p) (by exact hfresh) (by exact hnodup)]
      unfold Fs.createDirAll
      rw [mkTargets_cons_mk, Fs.mk.injEq]
      constructor
      · rw [List.flatMap_cons, List.toFinset_append, Finset.union_assoc]
      · rfl
    | WriteFile p c =>
      rw [execAll_cons]
      show execAll rest (fs.writeFile p c) = _
      have hfilter : fs.files.filter (fun e => e.1 ≠ p) = fs.files := by
        apply Finset.filter_true_of_mem
        intro e he
        exact hfresh (p, c) (by rw [writesOf_cons_wf]; exact List.mem_cons_self _ _) e he
      have hp_not_rest : p ∉ (writesOf rest).map (·.1) := by
        rw [writesOf_cons_wf] at hnodup
        simpa using (List.nodup_cons.mp hnodup).1
      have hfresh' : ∀ e ∈ writesOf rest, ∀ e' ∈ (fs.writeFile p c).files, e'.1 ≠ e.1 := by
        intro e he e' he'
        unfold Fs.writeFile at he'
        rw [hfilter, Finset.mem_insert] at he'
        rcases he' with he' | he'
        · subst he'
          intro hcon
          have hmem : e.1 ∈ (writesOf rest).map (·.1) := List.mem_map_of_mem (·.1) he
          rw [← hcon] at hmem
          exact hp_not_rest hmem
        · exact hfresh e (by rw [writesOf_cons_wf]; exact List.mem_cons_of_mem _ he) e' he'
      have hnodup' : ((writesOf rest).map (·.1)).Nodup := by
        rw [writesOf_cons_wf] at hnodup
        exact (List.nodup_cons.mp hnodup).2
      rw [ih (fs.writeFile p c) hfresh' hnodup']
      unfold Fs.writeFile
      rw [hfilter, writesOf_cons_wf, mkTargets_cons_wf, Fs.mk.injEq]
      constructor
      · rfl
      · show insert (p, c) fs.files ∪ (writesOf rest).toFinset = _
        rw [List.toFinset_cons, Finset.union_insert, Finset.insert_union]

/-- `apply_vfs` over a mutation list equals performing the mutations and
recording their undo operations in the order they happened. -/
theorem applyPrims_eq (ops : List PrimOp) (fs : Fs) :
    applyPrims ops fs = (execAll ops fs, ⟨undoLog ops⟩) := by
  have general : ∀ (ops : List PrimOp) (fs : Fs) (t : Transaction),
      ops.foldl applyStep (fs, t) =
        (execAll ops fs, ⟨t.rollback_operations ++ undoLog ops⟩) := by
    intro ops
    induction ops with
    | nil => intro fs t; simp [execAll, undoLog]
    | cons op rest ih =>
      intro fs t
      rw [List.foldl_cons, execAll_cons]
      show rest.foldl applyStep (execPrim fs op, t.add_operation (undoOfPrim op)) = _
      rw [ih (execPrim fs op) (t.add_operation (undoOfPrim op))]
      unfold Transaction.add_operation undoLog
      simp
  have := general ops fs Transaction.new
  unfold Transaction.new at this
  simpa using this

/-- Performing a fresh, ancestor-covered mutation list and then rolling back
its undo log restores the starting filesystem exactly. -/
theorem rollback_after_exec (ops : List PrimOp) (fs : Fs)
    (h1 : ∀ p ∈ mkTargets ops, ∀ q ∈ p.inits, q ≠ p → q ∈ fs.dirs ∨ q ∈ mkTargets ops)
    (h2d : ∀ p ∈ mkTargets ops, ∀ d ∈ fs.dirs, ¬ p <+: d)
    (h2f : ∀ p ∈ mkTargets ops, ∀ e ∈ fs.files, ¬ p <+: e.1)
    (h3 : ∀ e ∈ writesOf ops, (∀ e' ∈ fs.files, e'.1 ≠ e.1) ∧ e.1 ∉ mkTargets ops)
    (h5 : ((writesOf ops).map (·.1)).Nodup) :
    runRollback (undoLog ops) (execAll ops fs) = fs := by
  rw [execAll_eq ops fs (fun e he => (h3 e he).1) h5]
  set F : Fs :=
    { dirs := fs.dirs ∪ ((mkTargets ops).flatMap List.inits).toFinset,
      files := fs.files ∪ (writesOf ops).toFinset } with hF
  have hmemsF : ∀ p ∈ mkTargets ops, p ∈ F.dirs := by
    intro p hp
    rw [hF]
    apply Finset.mem_union_right
    rw [List.mem_toFinset, List.mem_flatMap]
    exact ⟨p, hp, by rw [List.mem_inits]⟩
  have hnofile : ∀ p ∈ rdTargets (undoLog ops), ∀ e ∈ F.files, e.1 ≠ p := by
    rw [rdTargets_undoLog]
    intro p hp e he
    rw [hF, Finset.mem_union] at he
    rcases he with he | he
    · intro hcon
      exact h2f p hp e he (hcon ▸ List.prefix_refl p)
    · rw [List.mem_toFinset] at he
      intro hcon
      exact (h3 e he).2 (hcon ▸ hp)
  rw [runRollback_eq_removeSet (undoLog ops) F
    (by rw [rdTargets_undoLog]; exact hmemsF) hnofile]
  unfold removeSet
  rw [rdTargets_undoLog, rfTargets_undoLog, Fs.mk.injEq]
  constructor
  · apply Finset.ext
    intro x
    rw [Finset.mem_filter, hF]
    simp only [Finset.mem_union, List.mem_toFinset, List.mem_flatMap]
    constructor
    · rintro ⟨hx, hnodom⟩
      rcases hx with hx | ⟨p, hp, hxp⟩
      · exact hx
      · rw [List.mem_inits] at hxp
        by_cases hxeq : x = p
        · exact absurd ⟨p, hp, hxeq ▸ List.prefix_refl p⟩ hnodom
        · rcases h1 p hp x (by rw [List.mem_inits]; exact hxp) hxeq with hfs | hmk
          · exact hfs
          · exact absurd ⟨x, hmk, List.prefix_refl x⟩ hnodom
    · intro hx
      refine ⟨Or.inl hx, ?_⟩
      rintro ⟨p, hp, hpx⟩
      exact h2d p hp x hx hpx
  · apply Finset.ext
    intro e
    rw [Finset.mem_filter, hF]
    simp only [Finset.mem_union, List.mem_toFinset]
    constructor
    · rintro ⟨he, _, hnotw⟩
      rcases he with he | he
      · exact he
      · exact absurd (List.mem_map_of_mem (·.1) he) hnotw
    · intro he
      refine ⟨Or.inl he, ?_, ?_⟩
      · rintro ⟨p, hp, hpe⟩
        exact h2f p hp e he hpe
      · rw [List.mem_map]
        rintro ⟨w, hw, hweq⟩
        exact (h3 w hw).1 e he hweq.symm

theorem mem_take_iff {α : Type} (l : List α) (k : Nat) (x : α) :
    x ∈ l.take k ↔ ∃ (i : Nat) (h : i < l.length), i < k ∧ l[i] = x := by
  constructor
  · intro hx
    obtain ⟨i, hi, hget⟩ := List.mem_iff_getElem.mp hx
    rw [List.length_take] at hi
    refine ⟨i, lt_of_lt_of_le hi (min_le_right _ _), lt_of_lt_of_le hi (min_le_left _ _), ?_⟩
    rw [← hget, List.getElem_take]
  · rintro ⟨i, h, hik, rfl⟩
    exact List.mem_iff_getElem.mpr
      ⟨i, by rw [List.length_take]; exact lt_min hik h, by rw [List.getElem_take]⟩

theorem mkTargets_append (l1 l2 : List PrimOp) :
    mkTargets (l1 ++ l2) = mkTargets l1 ++ mkTargets l2 := by
  unfold mkTargets; rw [List.filterMap_append]

theorem writesOf_append (l1 l2 : List PrimOp) :
    writesOf (l1 ++ l2) = writesOf l1 ++ writesOf l2 := by
  unfold writesOf; rw [List.filterMap_append]

theorem mkTargets_map_mk (l : List FsPath) : mkTargets (l.map .MkDirAll) = l := by
  induction l with
  | nil => rfl
  | cons p rest ih => rw [List.map_cons, mkTargets_cons_mk, ih]

theorem writesOf_map_mk (l : List FsPath) : writesOf (l.map .MkDirAll) = [] := by
  induction l with
  | nil => rfl
  | cons p rest ih => rw [List.map_cons, writesOf_cons_mk, ih]

theorem mkTargets_fileOpsOf (pc : FsPath × String) :
    mkTargets (fileOpsOf pc) = if pc.1 = [] then [] else [pc.1.dropLast] := by
  unfold fileOpsOf
  by_cases hnil : pc.1 = []
  · rw [if_pos hnil, if_pos hnil]; rfl
  · rw [if_neg hnil, if_neg hnil]; rfl

theorem writesOf_fileOpsOf (pc : FsPath × String) :
    writesOf (fileOpsOf pc) = [pc] := by
  unfold fileOpsOf
  by_cases hnil : pc.1 = []
  · rw [if_pos hnil]
    show [(pc.1, pc.2)] = [pc]
    rw [Prod.mk.eta]
  · rw [if_neg hnil]
    show [(pc.1, pc.2)] = [pc]
    rw [Prod.mk.eta]

theorem mkTargets_fileOps {D : List FsPath} (fl : List (FsPath × String))
    (h : ∀ e ∈ fl, e.1.dropLast ∈ D) :
    ∀ p ∈ mkTargets (fl.flatMap fileOpsOf), p ∈ D := by
  induction fl with
  | nil => intro p hp; cases hp
  | cons pc rest ih =>
    intro p hp
    rw [List.flatMap_cons, mkTargets_append, mkTargets_fileOpsOf] at hp
    rcases List.mem_append.mp hp with hp | hp
    · by_cases hnil : pc.1 = []
      · rw [if_pos hnil] at hp
        cases hp
      · rw [if_neg hnil] at hp
        rcases List.mem_cons.mp hp with hp | hp
        · exact hp ▸ h pc (List.mem_cons_self pc rest)
        · cases hp
    · exact ih (fun e he => h e (List.mem_cons_of_mem pc he)) p hp

theorem writesOf_fileOps (fl : List (FsPath × String)) :
    writesOf (fl.flatMap fileOpsOf) = fl := by
  induction fl with
  | nil => rfl
  | cons pc rest ih =>
    rw [List.flatMap_cons, writesOf_append, ih, writesOf_fileOpsOf]
    rfl

/-- C1: for a transaction that is not committed — here the implicit rollback
of dropping the still-`Active` transaction after `apply_vfs` failed after an
arbitrary prefix of its mutations — the recorded undo operations, executed
in reverse (LIFO) order with `RemoveFile` deleting the single file and
`RemoveDir` recursively removing the directory, leave the destination root
exactly as it was before the run.  The hypotheses express the spec's
assumption that no staged path pre-exists at the destination: every staged
directory is fresh (nothing at or under it pre-exists) and has its ancestor
chain covered by pre-existing directories or earlier staged directories;
every staged file is fresh, distinct, and has its immediate parent among the
staged directories. -/
theorem mid_apply_failure_rolls_back_exactly
    (vfs : VirtualFS) (fs : Fs) (k : Nat)
    (hAnc : ∀ (i : Nat) (hi : i < (dirDests vfs).length),
      ∀ q ∈ ((dirDests vfs)[i]).inits, q ≠ (dirDests vfs)[i] →
        q ∈ fs.dirs ∨ q ∈ (dirDests vfs).take i)
    (hDirsFresh : ∀ p ∈ dirDests vfs,
      (∀ d ∈ fs.dirs, ¬ p <+: d) ∧ (∀ e ∈ fs.files, ¬ p <+: e.1))
    (hParents : ∀ e ∈ fileDests vfs, e.1 ≠ [] ∧ e.1.dropLast ∈ dirDests vfs)
    (hFilesFresh : ∀ e ∈ fileDests vfs,
      (∀ e' ∈ fs.files, e'.1 ≠ e.1) ∧ e.1 ∉ dirDests vfs)
    (hFilesNodup : ((fileDests vfs).map (·.1)).Nodup) :
    Transaction.dropEffect .Active (applyPrims ((applyVfsOps vfs).take k) fs).2
      (applyPrims ((applyVfsOps vfs).take k) fs).1 = fs := by
  set D := dirDests vfs with hD
  set fl := fileDests vfs with hfl
  set opsk := (applyVfsOps vfs).take k with hopsk
  -- mkTargets of the executed prefix all lie among the staged directories
  have hmk_sub : ∀ p ∈ mkTargets opsk, p ∈ D := by
    intro p hp
    have hsub : List.Sublist (mkTargets opsk) (mkTargets (applyVfsOps vfs)) :=
      List.Sublist.filterMap _ (List.take_sublist k _)
    have hp' : p ∈ mkTargets (applyVfsOps vfs) := hsub.mem hp
    unfold applyVfsOps at hp'
    rw [mkTargets_append, mkTargets_map_mk] at hp'
    rcases List.mem_append.mp hp' with hp' | hp'
    · exact hp'
    · exact mkTargets_fileOps fl (fun e he => (hParents e he).2) p hp'
  have hw_sub : List.Sublist (writesOf opsk) fl := by
    have hsub : List.Sublist (writesOf opsk) (writesOf (applyVfsOps vfs)) :=
      List.Sublist.filterMap _ (List.take_sublist k _)
    unfold applyVfsOps at hsub
    rw [writesOf_append, writesOf_map_mk, List.nil_append, writesOf_fileOps] at hsub
    exact hsub
  -- main freshness conditions for the abstract restoration lemma
  have h2d : ∀ p ∈ mkTargets opsk, ∀ d ∈ fs.dirs, ¬ p <+: d :=
    fun p hp => (hDirsFresh p (hmk_sub p hp)).1
  have h2f : ∀ p ∈ mkTargets opsk, ∀ e ∈ fs.files, ¬ p <+: e.1 :=
    fun p hp => (hDirsFresh p (hmk_sub p hp)).2
  have h3 : ∀ e ∈ writesOf opsk, (∀ e' ∈ fs.files, e'.1 ≠ e.1) ∧ e.1 ∉ mkTargets opsk := by
    intro e he
    have hefl : e ∈ fl := hw_sub.mem he
    exact ⟨(hFilesFresh e hefl).1, fun hcon => (hFilesFresh e hefl).2 (hmk_sub e.1 hcon)⟩
  have h5 : ((writesOf opsk).map (·.1)).Nodup :=
    (hw_sub.map (·.1)).nodup hFilesNodup
  -- ancestor coverage for the executed prefix
  have h1 : ∀ p ∈ mkTargets opsk, ∀ q ∈ p.inits, q ≠ p →
      q ∈ fs.dirs ∨ q ∈ mkTargets opsk := by
    intro p hp q hq hqp
    by_cases hk : k ≤ D.length
    · -- the failure happened during the directory phase
      have hopsk_eq : opsk = (D.take k).map .MkDirAll := by
        rw [hopsk]
        unfold applyVfsOps
        rw [List.take_append_eq_append_take, List.length_map, ← hD,
          Nat.sub_eq_zero_of_le hk, List.take_zero, List.append_nil, List.map_take]
      rw [hopsk_eq, mkTargets_map_mk] at hp ⊢
      obtain ⟨i, hilen, hik, hieq⟩ := (mem_take_iff D k p).mp hp
      have hq2 : q ∈ (D[i]).inits := by rw [hieq]; exact hq
      have hqp2 : q ≠ D[i] := by rw [hieq]; exact hqp
      rcases hAnc i hilen q hq2 hqp2 with hfsd | htk
      · exact Or.inl hfsd
      · refine Or.inr ((mem_take_iff D k q).mpr ?_)
        obtain ⟨j, hjlen, hji, hjeq⟩ := (mem_take_iff D i q).mp htk
        exact ⟨j, hjlen, lt_trans hji hik, hjeq⟩
    · -- all directory entries were already created
      push_neg at hk
      have hD_sub : ∀ x ∈ D, x ∈ mkTargets opsk := by
        intro x hx
        have hopsk_eq : opsk = D.map .MkDirAll ++ (fl.flatMap fileOpsOf).take (k - D.length) := by
          rw [hopsk]
          unfold applyVfsOps
          rw [List.take_append_eq_append_take, List.length_map, ← hD,
            List.take_of_length_le (by rw [List.length_map]; exact le_of_lt hk)]
        rw [hopsk_eq, mkTargets_append, mkTargets_map_mk]
        exact List.mem_append_left _ hx
      have hpD : p ∈ D := hmk_sub p hp
      obtain ⟨i, hilen, hieq⟩ := List.mem_iff_getElem.mp hpD
      have hq2 : q ∈ (D[i]).inits := by rw [hieq]; exact hq
      have hqp2 : q ≠ D[i] := by rw [hieq]; exact hqp
      rcases hAnc i hilen q hq2 hqp2 with hfsd | htk
      · exact Or.inl hfsd
      · exact Or.inr (hD_sub q ((List.take_sublist i D).mem htk))
  -- put everything together
  rw [applyPrims_eq]
  show Transaction.dropEffect .Active ⟨undoLog opsk⟩ (execAll opsk fs) = fs
  unfold Transaction.dropEffect
  by_cases hempty : undoLog opsk = []
  · rw [hempty]
    have : opsk = [] := by
      unfold undoLog at hempty
      exact List.map_eq_nil_iff.mp hempty
    rw [this]
    simp [execAll]
  · have hcond : (TransactionState.Active.shouldRollback &&
        !(Transaction.mk (undoLog opsk)).rollback_operations.isEmpty) = true := by
      simp [TransactionState.shouldRollback, List.isEmpty_iff, hempty]
    rw [if_pos hcond]
    exact rollback_after_exec opsk fs h1 h2d h2f h3 h5

/-- The spec's example scenario: staged `out/`, `out/a.txt`, `out/b.txt`. -/
def exampleVfs : VirtualFS :=
  ⟨[⟨some ["out"], none, false⟩,
    ⟨some ["out", "a.txt"], some "A", true⟩,
    ⟨some ["out", "b.txt"], some "B", true⟩]⟩

/-- A destination root that pre-exists and is empty. -/
def exampleFs : Fs := ⟨{([] : FsPath)}, ∅⟩

theorem mid_apply_failure_rolls_back_exactly_witness :
    (∀ (i : Nat) (hi : i < (dirDests exampleVfs).length),
      ∀ q ∈ ((dirDests exampleVfs)[i]).inits, q ≠ (dirDests exampleVfs)[i] →
        q ∈ exampleFs.dirs ∨ q ∈ (dirDests exampleVfs).take i) ∧
    (∀ p ∈ dirDests exampleVfs,
      (∀ d ∈ exampleFs.dirs, ¬ p <+: d) ∧ (∀ e ∈ exampleFs.files, ¬ p <+: e.1)) ∧
    (∀ e ∈ fileDests exampleVfs, e.1 ≠ [] ∧ e.1.dropLast ∈ dirDests exampleVfs) ∧
    (∀ e ∈ fileDests exampleVfs,
      (∀ e' ∈ exampleFs.files, e'.1 ≠ e.1) ∧ e.1 ∉ dirDests exampleVfs) ∧
    ((fileDests exampleVfs).map (·.1)).Nodup ∧
    Transaction.dropEffect .Active (applyPrims ((applyVfsOps exampleVfs).take 4) exampleFs).2
      (applyPrims ((applyVfsOps exampleVfs).take 4) exampleFs).1 = exampleFs :=
  ⟨by decide, by decide, by decide, by decide, by decide,
    mid_apply_failure_rolls_back_exactly exampleVfs exampleFs 4
      (by decide) (by decide) (by decide) (by decide) (by decide)⟩

/-! ## Questions, answers and dependency predicates (`src/prompt.rs`) -/

/-- `prompt.rs`: an answer to a prompt. -/
inductive Answer where
  | String (s : String)
  | Bool (b : Bool)
  | Array (xs : List String)
deriving DecidableEq, Repr

/-- `prompt.rs`: a dependency expression. -/
inductive Dependency where
  | Condition (val : String)
  | And (all : List String)
  | Or (any : List String)
deriving DecidableEq, Repr

/-- `prompt.rs`: the type of prompt to display. -/
inductive QuestionType where
  | Text
  | Paragraph
  | Confirm
  | Select
  | MultiSelect
deriving DecidableEq, Repr

/-- `prompt.rs`: configuration of a single question (`r#type` is `qtype`
here). -/
structure Question where
  qtype : QuestionType
  help : String
  choices : Option (List String)
  raw_dependency : Option Dependency
deriving DecidableEq, Repr

/-- `QuestionsFile`: the insertion-ordered map from question identifier to
question, as a key/value list (keys unique in a parsed file). -/
abbrev QuestionsFile := List (String × Question)

/-- `str::split_once(':')` over the character list: splits at the first
colon. -/
def splitOnceAux : List Char → Option (List Char × List Char)
  | [] => none
  | c :: cs =>
      if c = ':' then some ([], cs)
      else
        match splitOnceAux cs with
        | none => none
        | some ab => some (c :: ab.1, ab.2)

/-- `dep_str.split_once(':')`. -/
def split_once (s : String) : Option (String × String) :=
  (splitOnceAux s.data).map (fun ab => (⟨ab.1⟩, ⟨ab.2⟩))

/-- `expected.parse::<bool>()`: only the exact strings `true` / `false`
parse. -/
def parseBool (s : String) : Option Bool :=
  if s = "true" then some true
  else if s = "false" then some false
  else none

/-- Answer lookup in the insertion-ordered answer map (`answers.get`). -/
def lookupAnswer (answers : List (String × Answer)) (q : String) : Option Answer :=
  List.lookup q answers

/-- `prompt.rs::check_dependency`: true iff the dependency string splits at a
colon, the referenced answer is present, and it matches the expected value
under same-kind comparison. -/
def check_dependency (dep : String) (answers : List (String × Answer)) : Bool :=
  match split_once dep with
  | some qv =>
    match lookupAnswer answers qv.1 with
    | some (.String ans) => ans == qv.2
    | some (.Bool ans) => some ans == parseBool qv.2
    | some (.Array arr) => arr.contains qv.2
    | none => false
  | none => false

/-- The `is_none_or` visibility closure in `get_answers`: no dependency means
always visible; `And` requires all predicates, `Or` at least one. -/
def should_prompt (dep : Option Dependency) (answers : List (String × Answer)) : Bool :=
  match dep with
  | none => true
  | some (.Condition val) => check_dependency val answers
  | some (.And all) => all.all (fun d => check_dependency d answers)
  | some (.Or any) => any.any (fun d => check_dependency d answers)

/-- The raw predicate strings of a dependency expression, as collected by
`adjacency_list_from_file`. -/
def depStrings : Option Dependency → List String
  | some (.Condition val) => [val]
  | some (.And all) => all
  | some (.Or any) => any
  | none => []

/-- `QuestionsFile::adjacency_list_from_file`: one edge
`(referenced_id, this_question_id)` per predicate string that splits at a
colon; strings without a colon are dropped by the `filter_map`. -/
def adjacency_list_from_file (file : QuestionsFile) : List (String × String) :=
  file.flatMap (fun qe =>
    (depStrings qe.2.raw_dependency).filterMap
      (fun dep_str => (split_once dep_str).map (fun qv => (qv.1, qe.1))))

theorem splitOnceAux_append (q v : List Char) (hq : ':' ∉ q) :
    splitOnceAux (q ++ ':' :: v) = some (q, v) := by
  induction q with
  | nil => simp [splitOnceAux]
  | cons c cs ih =>
    have hc : ¬ c = ':' := fun h => hq (List.mem_cons.mpr (Or.inl h.symm))
    rw [List.cons_append]
    unfold splitOnceAux
    rw [if_neg hc, ih (fun h => hq (List.mem_cons_of_mem c h))]

theorem split_once_append (q v : String) (hq : ':' ∉ q.data) :
    split_once (q ++ ":" ++ v) = some (q, v) := by
  unfold split_once
  have hdata : (q ++ ":" ++ v).data = q.data ++ ':' :: v.data := by
    rw [String.data_append, String.data_append, List.append_assoc]
    rfl
  rw [hdata, splitOnceAux_append q.data v.data hq]
  rfl

/-- Modelled from the spec (§4.3), for comparison with `check_dependency`:
`Condition(q, v)` is true iff an answer for `q` exists and, compared as
same-kind values, equals `v` — string equality for String, membership for
Array; for Bool, `v` is parsed as a boolean and compared, and a parse
failure or missing answer makes the predicate false, not an error. -/
def specConditionHolds (q v : String) (answers : List (String × Answer)) : Prop :=
  ∃ a, lookupAnswer answers q = some a ∧
    (match a with
     | .String s => s = v
     | .Bool b => ∃ bv, parseBool v = some bv ∧ b = bv
     | .Array xs => v ∈ xs)

/-- C5: for every predicate string `q:v` and answer map, `check_dependency`
agrees with the spec's description of `Condition(q, v)`; and the `And` /
`Or` forms of the visibility check are true iff all / at least one of their
predicate strings check true. -/
theorem check_dependency_matches_spec (q v : String) (answers : List (String × Answer))
    (hq : ':' ∉ q.data) :
    (check_dependency (q ++ ":" ++ v) answers = true ↔ specConditionHolds q v answers) ∧
    (∀ all : List String, should_prompt (some (.And all)) answers = true ↔
      ∀ d ∈ all, check_dependency d answers = true) ∧
    (∀ any : List String, should_prompt (some (.Or any)) answers = true ↔
      ∃ d ∈ any, check_dependency d answers = true) := by
  refine ⟨?_, ?_, ?_⟩
  · unfold check_dependency
    rw [split_once_append q v hq]
    show (match lookupAnswer answers q with
      | some (Answer.String ans) => ans == v
      | some (Answer.Bool ans) => some ans == parseBool v
      | some (Answer.Array arr) => arr.contains v
      | none => false) = true ↔ _
    unfold specConditionHolds
    cases hl : lookupAnswer answers q with
    | none => simp
    | some a =>
      cases a with
      | String s =>
        show (s == v) = true ↔ _
        rw [beq_iff_eq]
        constructor
        · intro h
          exact ⟨.String s, rfl, h⟩
        · rintro ⟨a, ha, hm⟩
          injection ha with ha2
          subst ha2
          exact hm
      | Bool b =>
        show (some b == parseBool v) = true ↔ _
        rw [beq_iff_eq]
        constructor
        · intro h
          exact ⟨.Bool b, rfl, b, h.symm, rfl⟩
        · rintro ⟨a, ha, hm⟩
          injection ha with ha2
          subst ha2
          obtain ⟨bv, hbv, rfl⟩ := hm
          exact hbv.symm
      | Array xs =>
        show (xs.elem v) = true ↔ _
        rw [List.elem_iff]
        constructor
        · intro h
          exact ⟨.Array xs, rfl, h⟩
        · rintro ⟨a, ha, hm⟩
          injection ha with ha2
          subst ha2
          exact hm
  · intro all
    show (all.all fun d => check_dependency d answers) = true ↔ _
    rw [List.all_eq_true]
  · intro any
    show (any.any fun d => check_dependency d answers) = true ↔ _
    rw [List.any_eq_true]

theorem check_dependency_matches_spec_witness :
    (':' ∉ ("flag" : String).data) ∧
    (check_dependency ("flag" ++ ":" ++ "true") [("flag", Answer.Bool true)] = true ↔
      specConditionHolds "flag" "true" [("flag", Answer.Bool true)]) :=
  ⟨by decide,
    (check_dependency_matches_spec "flag" "true" [("flag", Answer.Bool true)] (by decide)).1⟩

theorem splitOnceAux_eq_none (l : List Char) (h : ':' ∉ l) : splitOnceAux l = none := by
  induction l with
  | nil => rfl
  | cons c cs ih =>
    have hc : ¬ c = ':' := fun hcc => h (List.mem_cons.mpr (Or.inl hcc.symm))
    unfold splitOnceAux
    rw [if_neg hc, ih (fun hm => h (List.mem_cons_of_mem c hm))]

theorem split_once_eq_none (d : String) (h : ':' ∉ d.data) : split_once d = none := by
  unfold split_once
  rw [splitOnceAux_eq_none d.data h]
  rfl

theorem check_dependency_malformed (d : String) (answers : List (String × Answer))
    (h : ':' ∉ d.data) : check_dependency d answers = false := by
  unfold check_dependency
  rw [split_once_eq_none d h]

/-- Number of edges pointing at `n` (the in-degree contribution used both by
the sorter and the stabilizer). -/
def countDest {Node : Type} [DecidableEq Node] (edges : List (Node × Node)) (n : Node) : Nat :=
  edges.countP (fun e => decide (e.2 = n))

theorem adjacency_append (l1 l2 : QuestionsFile) :
    adjacency_list_from_file (l1 ++ l2) =
      adjacency_list_from_file l1 ++ adjacency_list_from_file l2 := by
  unfold adjacency_list_from_file
  rw [List.flatMap_append]

theorem adjacency_dest_mem (file : QuestionsFile) :
    ∀ e ∈ adjacency_list_from_file file, ∃ qe ∈ file, e.2 = qe.1 := by
  intro e he
  unfold adjacency_list_from_file at he
  rw [List.mem_flatMap] at he
  obtain ⟨qe, hqe, hin⟩ := he
  rw [List.mem_filterMap] at hin
  obtain ⟨d, _, hmap⟩ := hin
  cases hsp : split_once d with
  | none => rw [hsp] at hmap; cases hmap
  | some qv =>
    rw [hsp] at hmap
    injection hmap with hmap2
    exact ⟨qe, hqe, by rw [← hmap2]⟩

/-- C10: a dependency string with no colon separator yields no edge in the
graph builder, so a question whose dependency expression consists only of
such strings keeps the graph identical to the same file without that
question's predicates, has in-degree zero (it is independent for ordering),
and its visibility check is false against every answer map, so it is never
prompted — and no error is raised anywhere on this path. -/
theorem malformed_dependency_is_inert
    (file1 file2 : QuestionsFile) (k : String) (c : Question)
    (answers : List (String × Answer))
    (hmal : ∀ d ∈ depStrings c.raw_dependency, ':' ∉ d.data)
    (hkeys : ∀ qe ∈ file1 ++ file2, qe.1 ≠ k)
    (hne : depStrings c.raw_dependency ≠ []) :
    adjacency_list_from_file (file1 ++ (k, c) :: file2) =
      adjacency_list_from_file (file1 ++ file2) ∧
    countDest (adjacency_list_from_file (file1 ++ (k, c) :: file2)) k = 0 ∧
    should_prompt c.raw_dependency answers = false := by
  have hcontrib : adjacency_list_from_file [(k, c)] = [] := by
    unfold adjacency_list_from_file
    rw [List.flatMap_cons]
    show (depStrings c.raw_dependency).filterMap _ ++ adjacency_list_from_file [] = []
    rw [List.filterMap_eq_nil_iff.mpr]
    · rfl
    · intro d hd
      rw [split_once_eq_none d (hmal d hd)]
      rfl
  have hsame : adjacency_list_from_file (file1 ++ (k, c) :: file2) =
      adjacency_list_from_file (file1 ++ file2) := by
    rw [show file1 ++ (k, c) :: file2 = file1 ++ [(k, c)] ++ file2 by simp,
      adjacency_append, adjacency_append, hcontrib, adjacency_append]
    simp
  refine ⟨hsame, ?_, ?_⟩
  · rw [hsame]
    unfold countDest
    rw [List.countP_eq_zero]
    intro e he
    obtain ⟨qe, hqe, heq⟩ := adjacency_dest_mem _ e he
    simp only [decide_eq_true_eq]
    rw [heq]
    exact hkeys qe hqe
  · cases hdep : c.raw_dependency with
    | none =>
      rw [hdep] at hne
      exact absurd rfl hne
    | some dep =>
      cases dep with
      | Condition v =>
        show check_dependency v answers = false
        exact check_dependency_malformed v answers
          (hmal v (by rw [hdep]; exact List.mem_cons_self v []))
      | And all =>
        show (all.all fun d => check_dependency d answers) = false
        rw [hdep] at hne hmal
        obtain ⟨d0, hd0⟩ := List.exists_mem_of_ne_nil all hne
        rw [Bool.eq_false_iff]
        intro hcon
        rw [List.all_eq_true] at hcon
        have h1 := hcon d0 hd0
        rw [check_dependency_malformed d0 answers (hmal d0 hd0)] at h1
        cases h1
      | Or any =>
        show (any.any fun d => check_dependency d answers) = false
        rw [hdep] at hmal
        rw [Bool.eq_false_iff]
        intro hcon
        rw [List.any_eq_true] at hcon
        obtain ⟨d0, hd0, h1⟩ := hcon
        rw [check_dependency_malformed d0 answers (hmal d0 hd0)] at h1
        cases h1

theorem malformed_dependency_is_inert_witness :
    (∀ d ∈ depStrings (some (Dependency.Condition "no separator")), ':' ∉ d.data) ∧
    (adjacency_list_from_file
        [("other", ⟨.Text, "h", none, none⟩),
         ("q", ⟨.Confirm, "h", none, some (.Condition "no separator")⟩)] =
      adjacency_list_from_file [("other", ⟨.Text, "h", none, none⟩)]) ∧
    countDest (adjacency_list_from_file
        [("other", ⟨.Text, "h", none, none⟩),
         ("q", ⟨.Confirm, "h", none, some (.Condition "no separator")⟩)]) "q" = 0 ∧
    should_prompt (some (.Condition "no separator")) [] = false := by
  refine ⟨by decide, ?_⟩
  have h := malformed_dependency_is_inert [("other", ⟨.Text, "h", none, none⟩)] [] "q"
    ⟨.Confirm, "h", none, some (.Condition "no separator")⟩ []
    (by decide) (by decide) (by decide)
  exact ⟨h.1, h.2.1, h.2.2⟩

/-! ## Path-segment rendering and the VFS builder (`src/template.rs`) -/

/-- The template-rendering collaborator: `tera.render_str` with the fixed
render context, which either renders a string or fails. -/
abbrev RenderFn := String → Except Unit String

/-- `char::is_whitespace`: the Unicode `White_Space` property (U+0009-000D,
U+0020, U+0085, U+00A0, U+1680, U+2000-200A, U+2028, U+2029, U+202F, U+205F,
U+3000). -/
def isWsChar (c : Char) : Bool :=
  c = '\t' || c = '\n' || c = '\x0B' || c = '\x0C' || c = '\r' || c = ' ' ||
  c = '\u0085' || c = '\u00A0' || c = '\u1680' ||
  ('\u2000' ≤ c && c ≤ '\u200A') ||
  c = '\u2028' || c = '\u2029' || c = '\u202F' || c = '\u205F' || c = '\u3000'

/-- `str::trim`: strip leading and trailing whitespace. -/
def strTrim (s : String) : String :=
  ⟨((s.data.dropWhile isWsChar).reverse.dropWhile isWsChar).reverse⟩

/-- `template.rs::render_path_segments`: renders each component, returns
`none` as soon as any component renders to a whitespace-only string, and
otherwise reassembles the trimmed components. -/
def render_path_segments (render : RenderFn) : List String → Except Unit (Option (List String))
  | [] => .ok (some [])
  | comp :: rest =>
      (render comp).bind (fun rendered =>
        if (strTrim rendered).data.isEmpty then .ok none
        else
          (render_path_segments render rest).map
            (fun tail => tail.map (fun t => strTrim rendered :: t)))

/-- `TERA_FILE_EXTENSION`. -/
def TERA_FILE_EXTENSION : String := "tera"

/-- Split of a file-name tail at its last dot (any position). -/
def lastDotSplitAny : List Char → Option (List Char × List Char)
  | [] => none
  | c :: cs =>
      match lastDotSplitAny cs with
      | some se => some (c :: se.1, se.2)
      | none => if c = '.' then some ([], cs) else none

/-- `Path::file_stem` / `Path::extension` on a single file name: the split is
at the last dot not in leading position (`".tera"` has no extension). -/
def fileNameSplit (s : String) : Option (String × String) :=
  match s.data with
  | [] => none
  | c :: cs => (lastDotSplitAny cs).map (fun se => (⟨c :: se.1⟩, ⟨se.2⟩))

def extensionOf (s : String) : Option String := (fileNameSplit s).map (·.2)

def fileStemOf (s : String) : String := ((fileNameSplit s).map (·.1)).getD s

/-- `PathBuf::extension`: extension of the final component. -/
def pathExtension (p : List String) : Option String :=
  match p.getLast? with
  | some name => extensionOf name
  | none => none

/-- `final_dest.set_file_name(final_dest.file_stem())`: replace the final
component by its stem. -/
def pathSetStem (p : List String) : List String :=
  match p.getLast? with
  | some name => p.dropLast ++ [fileStemOf name]
  | none => p

/-- One entry yielded by the `WalkDir` traversal of the blueprint directory:
its blueprint-root-relative path, its final name (used for the
`blueprint.toml` skip), whether it is a file, and its contents. -/
structure WalkEntry where
  relPath : List String
  fileName : String
  is_file : Bool
  content : String
deriving DecidableEq, Repr

/-- The body of the `build_vfs` loop for one walked entry: skip the blueprint
config file, render the path segments (dropping the entry if any renders
empty), and for files strip the template marker and render the content, or
copy verbatim. -/
def processEntry (render : RenderFn) (e : WalkEntry) : Except Unit (Option VirtualEntry) :=
  if e.fileName = "blueprint.toml" then .ok none
  else
    (render_path_segments render e.relPath).bind (fun r =>
      match r with
      | none => .ok none
      | some rendered =>
        if e.is_file then
          if pathExtension rendered = some TERA_FILE_EXTENSION then
            (render e.content).map (fun rc =>
              some ⟨some (pathSetStem rendered), some rc, true⟩)
          else .ok (some ⟨some rendered, some e.content, true⟩)
        else .ok (some ⟨some rendered, none, false⟩))

/-- `template.rs::build_vfs` over the walked entries, in traversal order. -/
def build_vfs (render : RenderFn) : List WalkEntry → Except Unit (List VirtualEntry)
  | [] => .ok []
  | e :: rest =>
      (processEntry render e).bind (fun r =>
        (build_vfs render rest).map (fun tail =>
          match r with
          | none => tail
          | some v => v :: tail))

theorem render_path_segments_empty_append (render : RenderFn) (path ext : List String)
    (hok : ∀ c ∈ path, ∃ s, render c = .ok s)
    (hempty : ∃ c ∈ path, ∃ s, render c = .ok s ∧ (strTrim s).data.isEmpty = true) :
    render_path_segments render (path ++ ext) = .ok none := by
  induction path with
  | nil =>
    obtain ⟨c, hc, _⟩ := hempty
    cases hc
  | cons c cs ih =>
    obtain ⟨s, hs⟩ := hok c (List.mem_cons_self c cs)
    rw [List.cons_append]
    show (render c).bind _ = .ok none
    rw [hs]
    show (if (strTrim s).data.isEmpty then Except.ok none
      else (render_path_segments render (cs ++ ext)).map _) = .ok none
    by_cases hse : (strTrim s).data.isEmpty = true
    · rw [if_pos hse]
    · rw [if_neg hse]
      have hempty' : ∃ c2 ∈ cs, ∃ s2, render c2 = .ok s2 ∧ (strTrim s2).data.isEmpty = true := by
        obtain ⟨c2, hc2, s2, hs2, he2⟩ := hempty
        rcases List.mem_cons.mp hc2 with hc2 | hc2
        · subst hc2
          rw [hs] at hs2
          injection hs2 with hs2
          exact absurd (hs2 ▸ he2) hse
        · exact ⟨c2, hc2, s2, hs2, he2⟩
      rw [ih (fun c2 hc2 => hok c2 (List.mem_cons_of_mem c hc2)) hempty']
      rfl

theorem render_path_segments_all_nonempty (render : RenderFn) (path : List String)
    (f : String → String)
    (hok : ∀ c ∈ path, render c = .ok (f c) ∧ ((strTrim (f c)).data).isEmpty = false) :
    render_path_segments render path = .ok (some (path.map (fun c => strTrim (f c)))) := by
  induction path with
  | nil => rfl
  | cons c cs ih =>
    obtain ⟨hrc, hne⟩ := hok c (List.mem_cons_self c cs)
    show (render c).bind _ = _
    rw [hrc]
    show (if ((strTrim (f c)).data).isEmpty then Except.ok none
      else (render_path_segments render cs).map _) = _
    rw [if_neg (by rw [hne]; exact Bool.false_ne_true),
      ih (fun c2 hc2 => hok c2 (List.mem_cons_of_mem c hc2))]
    rfl

/-- C6: if any component of an entry's blueprint-root-relative path renders
to a whitespace-only string (all components up to it rendering successfully),
then no `VirtualEntry` is produced for that entry nor for anything beneath it
(any entry whose relative path extends it); if all components render
non-empty they are reassembled — trimmed, in order — into the destination
path. -/
theorem empty_segment_elides_entry_and_subtree (render : RenderFn) (e : WalkEntry) :
    ((∀ c ∈ e.relPath, ∃ s, render c = .ok s) →
     (∃ c ∈ e.relPath, ∃ s, render c = .ok s ∧ (strTrim s).data.isEmpty = true) →
     ∀ e' : WalkEntry, (∃ ext, e'.relPath = e.relPath ++ ext) →
       processEntry render e' = .ok none) ∧
    (∀ f : String → String,
     (∀ c ∈ e.relPath, render c = .ok (f c) ∧ ((strTrim (f c)).data).isEmpty = false) →
     render_path_segments render e.relPath =
       .ok (some (e.relPath.map (fun c => strTrim (f c))))) := by
  constructor
  · intro hok hempty e' ⟨ext, hext⟩
    unfold processEntry
    by_cases hbp : e'.fileName = "blueprint.toml"
    · rw [if_pos hbp]
    · rw [if_neg hbp, hext, render_path_segments_empty_append render e.relPath ext hok hempty]
      rfl
  · intro f hok
    exact render_path_segments_all_nonempty render e.relPath f hok

theorem empty_segment_elides_entry_and_subtree_witness :
    (∃ c ∈ (["DIR", "file.txt"] : List String),
      ∃ s, (fun c => (.ok (if c = "DIR" then "\u00A0" else c) : Except Unit String)) c =
          .ok s ∧
        (strTrim s).data.isEmpty = true) ∧
    processEntry (fun c => (.ok (if c = "DIR" then "\u00A0" else c) : Except Unit String))
      ⟨["DIR", "file.txt"], "file.txt", true, "x"⟩ = .ok none :=
  ⟨⟨"DIR", by decide, "\u00A0", congrArg Except.ok (if_pos rfl), by decide⟩,
    (empty_segment_elides_entry_and_subtree
      (fun c => (.ok (if c = "DIR" then "\u00A0" else c) : Except Unit String))
      ⟨["DIR", "file.txt"], "file.txt", true, "x"⟩).1
      (fun c _ => ⟨if c = "DIR" then "\u00A0" else c, rfl⟩)
      ⟨"DIR", by decide, "\u00A0", congrArg Except.ok (if_pos rfl), by decide⟩
      ⟨["DIR", "file.txt"], "file.txt", true, "x"⟩ ⟨[], rfl⟩⟩

theorem lastDotSplitAny_no_dot (l : List Char) (h : '.' ∉ l) : lastDotSplitAny l = none := by
  induction l with
  | nil => rfl
  | cons c cs ih =>
    unfold lastDotSplitAny
    rw [ih (fun hm => h (List.mem_cons_of_mem c hm))]
    exact if_neg (fun hc => h (List.mem_cons.mpr (Or.inl hc.symm)))

theorem lastDotSplitAny_append (l r : List Char) (h : '.' ∉ r) :
    lastDotSplitAny (l ++ '.' :: r) = some (l, r) := by
  induction l with
  | nil =>
    show lastDotSplitAny ('.' :: r) = some ([], r)
    unfold lastDotSplitAny
    rw [lastDotSplitAny_no_dot r h]
    show (if '.' = '.' then some (([] : List Char), r) else none) = some ([], r)
    rw [if_pos rfl]
  | cons c cs ih =>
    rw [List.cons_append]
    unfold lastDotSplitAny
    rw [ih]

theorem fileNameSplit_marker (s ext : String) (hs : s.data ≠ []) (hext : '.' ∉ ext.data) :
    fileNameSplit (s ++ "." ++ ext) = some (s, ext) := by
  have hdata : (s ++ "." ++ ext).data = s.data ++ '.' :: ext.data := by
    rw [String.data_append, String.data_append, List.append_assoc]
    rfl
  unfold fileNameSplit
  rw [hdata]
  cases hsd : s.data with
  | nil => exact absurd hsd hs
  | cons c cs =>
    rw [List.cons_append]
    show (lastDotSplitAny (cs ++ '.' :: ext.data)).map _ = _
    rw [lastDotSplitAny_append cs ext.data hext]
    show some (⟨c :: cs⟩, ⟨ext.data⟩) = some (s, ext)
    rw [← hsd]

theorem except_bind_ok {ε α β : Type} (a : α) (f : α → Except ε β) :
    (Except.ok (ε := ε) a).bind f = f a := rfl

/-- C7: for a file entry whose rendered final path component carries the
reserved `.tera` marker, the produced `VirtualEntry` has the marker stripped
from the destination filename and its content is the source content passed
through the template engine; for a file whose rendered path does not carry
the marker, the rendered name is kept and the content copied verbatim. -/
theorem tera_marker_strips_and_renders (render : RenderFn) (e : WalkEntry)
    (hfile : e.is_file = true) (hname : ¬ e.fileName = "blueprint.toml") :
    (∀ (init : List String) (s : String), s.data ≠ [] →
      render_path_segments render e.relPath =
        .ok (some (init ++ [s ++ "." ++ TERA_FILE_EXTENSION])) →
      processEntry render e =
        (render e.content).map (fun rc => some ⟨some (init ++ [s]), some rc, true⟩)) ∧
    (∀ rendered : List String,
      render_path_segments render e.relPath = .ok (some rendered) →
      pathExtension rendered ≠ some TERA_FILE_EXTENSION →
      processEntry render e = .ok (some ⟨some rendered, some e.content, true⟩)) := by
  constructor
  · intro init s hs hsegs
    have hdot : '.' ∉ TERA_FILE_EXTENSION.data := by decide
    have hext : pathExtension (init ++ [s ++ "." ++ TERA_FILE_EXTENSION]) =
        some TERA_FILE_EXTENSION := by
      unfold pathExtension
      rw [List.getLast?_concat]
      show (fileNameSplit (s ++ "." ++ TERA_FILE_EXTENSION)).map (fun x => x.2) =
        some TERA_FILE_EXTENSION
      rw [fileNameSplit_marker s TERA_FILE_EXTENSION hs hdot]
      rfl
    have hstem : pathSetStem (init ++ [s ++ "." ++ TERA_FILE_EXTENSION]) = init ++ [s] := by
      unfold pathSetStem
      rw [List.getLast?_concat, List.dropLast_concat]
      show init ++ [((fileNameSplit (s ++ "." ++ TERA_FILE_EXTENSION)).map
          (fun x => x.1)).getD (s ++ "." ++ TERA_FILE_EXTENSION)] = init ++ [s]
      rw [fileNameSplit_marker s TERA_FILE_EXTENSION hs hdot]
      rfl
    unfold processEntry
    rw [if_neg hname, hsegs, except_bind_ok]
    show (if e.is_file then _ else _) = _
    rw [hfile]
    show (if pathExtension (init ++ [s ++ "." ++ TERA_FILE_EXTENSION]) =
        some TERA_FILE_EXTENSION then _ else _) = _
    rw [if_pos hext, hstem]
  · intro rendered hsegs hnotera
    unfold processEntry
    rw [if_neg hname, hsegs, except_bind_ok]
    show (if e.is_file then _ else _) = _
    rw [hfile]
    show (if pathExtension rendered = some TERA_FILE_EXTENSION then _ else _) = _
    rw [if_neg hnotera]

theorem tera_marker_strips_and_renders_witness :
    (("main.rs" : String).data ≠ [] ∧
      render_path_segments (fun c => (.ok c : Except Unit String))
          ["main.rs.tera"] = .ok (some ([] ++ ["main.rs" ++ "." ++ TERA_FILE_EXTENSION])) ∧
      processEntry (fun c => (.ok c : Except Unit String))
          ⟨["main.rs.tera"], "main.rs.tera", true, "fn main() {}"⟩ =
        .ok (some ⟨some ["main.rs"], some "fn main() {}", true⟩)) ∧
    (pathExtension ["README.md"] ≠ some TERA_FILE_EXTENSION ∧
      processEntry (fun c => (.ok c : Except Unit String))
          ⟨["README.md"], "README.md", true, "docs"⟩ =
        .ok (some ⟨some ["README.md"], some "docs", true⟩)) := by
  constructor
  · refine ⟨by decide, rfl, ?_⟩
    exact (tera_marker_strips_and_renders (fun c => (.ok c : Except Unit String))
      ⟨["main.rs.tera"], "main.rs.tera", true, "fn main() {}"⟩ rfl (by decide)).1
      [] "main.rs" (by decide) rfl
  · refine ⟨by decide, ?_⟩
    exact (tera_marker_strips_and_renders (fun c => (.ok c : Except Unit String))
      ⟨["README.md"], "README.md", true, "docs"⟩ rfl (by decide)).2
      ["README.md"] rfl (by decide)

/-! ## Kahn topological sort (`tampopo/src/lib.rs`)

`sort_graph` seeds its queue by iterating the `in_degree_map` hash map and
pushing every zero-in-degree key.  Hash-map iteration order is not fixed, so
the model takes the resulting key order as an explicit `seed` parameter; a
run of the program corresponds to some `seed` that is a permutation of the
zero-count keys. -/

structure Graph (Node : Type) where
  nodes : List Node
  edges : List (Node × Node)

variable {Node : Type} [DecidableEq Node]

/-- `dependencies_to_dependents_map` lookup: the dependents of `n`, in edge
order (matching the per-key `Vec` push order). -/
def depsOf (edges : List (Node × Node)) (n : Node) : List Node :=
  (edges.filter (fun e => decide (e.1 = n))).map (·.2)

def keysOf (m : List (Node × Nat)) : List Node := m.map (·.1)

def lookupCount (m : List (Node × Nat)) (k : Node) : Option Nat :=
  (m.find? (fun p => decide (p.1 = k))).map (·.2)

/-- `in_degree_map.entry(node).or_insert(0)`. -/
def insertZero (m : List (Node × Nat)) (k : Node) : List (Node × Nat) :=
  if k ∈ keysOf m then m else m ++ [(k, 0)]

/-- `*in_degree_map.entry(dest).or_insert(0) += 1`. -/
def bumpDest (m : List (Node × Nat)) (k : Node) : List (Node × Nat) :=
  if k ∈ keysOf m then m.map (fun p => if p.1 = k then (p.1, p.2 + 1) else p)
  else m ++ [(k, 1)]

/-- The `in_degree_map` after the two initialization loops. -/
def buildInDeg (g : Graph Node) : List (Node × Nat) :=
  g.edges.foldl (fun m e => bumpDest m e.2) (g.nodes.foldl insertZero [])

/-- `in_degree_map.remove(&node)`. -/
def removeKey (m : List (Node × Nat)) (k : Node) : List (Node × Nat) :=
  m.filter (fun p => decide (p.1 ≠ k))

/-- `*count -= 1` on an existing key. -/
def decrKey (m : List (Node × Nat)) (k : Node) : List (Node × Nat) :=
  m.map (fun p => if p.1 = k then (p.1, p.2 - 1) else p)

/-- The body of the neighbor loop: decrement a present neighbor and, when it
reaches zero, remove it and push it onto the queue front. -/
def stepOne (acc : List (Node × Nat) × List Node) (x : Node) :
    List (Node × Nat) × List Node :=
  match lookupCount acc.1 x with
  | none => acc
  | some c =>
      if c - 1 = 0 then (removeKey acc.1 x, acc.2 ++ [x])
      else (decrKey acc.1 x, acc.2)

/-- The whole neighbor loop of one `while` iteration. -/
def stepNeighbors (m : List (Node × Nat)) (ns : List Node) :
    List (Node × Nat) × List Node :=
  ns.foldl stepOne (m, [])

theorem lookupCount_some {m : List (Node × Nat)} {k : Node} {c : Nat}
    (h : lookupCount m k = some c) : (k, c) ∈ m := by
  unfold lookupCount at h
  cases hf : m.find? (fun p => decide (p.1 = k)) with
  | none => rw [hf] at h; cases h
  | some p =>
    rw [hf] at h
    injection h with h2
    have hmem := List.mem_of_find?_eq_some hf
    have hpred := List.find?_some hf
    rw [decide_eq_true_eq] at hpred
    have hp : p = (k, c) := by
      cases p
      rw [Prod.mk.injEq]
      exact ⟨hpred, h2⟩
    rw [← hp]
    exact hmem

theorem removeKey_length_lt {m : List (Node × Nat)} {k : Node} {c : Nat}
    (h : lookupCount m k = some c) : (removeKey m k).length < m.length := by
  unfold removeKey
  rw [List.length_filter_lt_length_iff_exists]
  exact ⟨(k, c), lookupCount_some h, by simp⟩

theorem stepFold_length (ns : List Node) :
    ∀ (st : List (Node × Nat) × List Node),
      (ns.foldl stepOne st).1.length + (ns.foldl stepOne st).2.length ≤
        st.1.length + st.2.length := by
  induction ns with
  | nil => intro st; exact le_refl _
  | cons x rest ih =>
    intro st
    rw [List.foldl_cons]
    refine le_trans (ih (stepOne st x)) ?_
    unfold stepOne
    cases hl : lookupCount st.1 x with
    | none => exact le_refl _
    | some c =>
      show (if c - 1 = 0 then (removeKey st.1 x, st.2 ++ [x])
        else (decrKey st.1 x, st.2)).1.length +
        (if c - 1 = 0 then (removeKey st.1 x, st.2 ++ [x])
          else (decrKey st.1 x, st.2)).2.length ≤ _
      by_cases hc : c - 1 = 0
      · rw [if_pos hc]
        have hlt := removeKey_length_lt hl
        show (removeKey st.1 x).length + (st.2 ++ [x]).length ≤ _
        rw [List.length_append, List.length_singleton]
        omega
      · rw [if_neg hc]
        show (decrKey st.1 x).length + st.2.length ≤ _
        unfold decrKey
        rw [List.length_map]

theorem stepNeighbors_length (m : List (Node × Nat)) (ns : List Node) :
    (stepNeighbors m ns).1.length + (stepNeighbors m ns).2.length ≤ m.length := by
  have h := stepFold_length ns (m, [])
  unfold stepNeighbors
  simpa using h

/-- The `while let Some(node) = queue.pop_back()` loop.  The queue is
represented with its back at the head: `pop_back` takes the head and
`push_front` appends at the end. -/
def kahnLoop (dep : Node → List Node) :
    List (Node × Nat) → List Node → List Node → List Node × List (Node × Nat)
  | m, [], sorted => (sorted, m)
  | m, n :: q, sorted =>
      let step := stepNeighbors (removeKey m n) (dep n)
      kahnLoop dep step.1 (q ++ step.2) (sorted ++ [n])
termination_by m q _ => m.length + q.length
decreasing_by
  simp only [List.length_append, List.length_cons]
  have h1 := stepNeighbors_length (removeKey m n) (dep n)
  have h2 : (removeKey m n).length ≤ m.length := List.length_filter_le _ _
  omega

/-- The zero-in-degree keys of the in-degree map, in map order; the real
queue seeding iterates the hash map and keeps exactly these keys, in a
hash-dependent order. -/
def zeroKeys (m : List (Node × Nat)) : List Node :=
  (m.filter (fun p => decide (p.2 = 0))).map (·.1)

/-- `tampopo::sort_graph`, parameterized by the hash-iteration order `seed`
of the queue-seeding loop.  Seeding `push_back`s in iteration order and the
loop `pop_back`s, so the initial queue in our head-is-back representation is
`seed.reverse`. -/
def sort_graph (g : Graph Node) (seed : List Node) :
    Except (List (Node × Node)) (List Node) :=
  let r := kahnLoop (depsOf g.edges) (buildInDeg g) seed.reverse []
  if r.2.isEmpty then .ok r.1 else .error g.edges

/-- A possible hash-map iteration result: some permutation of the
zero-in-degree keys. -/
def ValidSeed (g : Graph Node) (seed : List Node) : Prop :=
  seed.Perm (zeroKeys (buildInDeg g))

instance (g : Graph Node) (seed : List Node) : Decidable (ValidSeed g seed) :=
  inferInstanceAs (Decidable (seed.Perm _))

/-- `prompt.rs::stablize_topological_order`: the zero-in-degree nodes of the
original graph first, in declaration order, then the remaining nodes in
sorted order. -/
def independentNodes (g : Graph Node) : List Node :=
  g.nodes.filter (fun n => decide (countDest g.edges n = 0))

def stablize_topological_order (g : Graph Node) (sorted : List Node) : List Node :=
  independentNodes g ++ sorted.filter (fun n => decide (n ∉ independentNodes g))

/-! ### Association-list facts for the in-degree map -/

theorem lookup_of_mem_nodup {m : List (Node × Nat)} (hnd : (keysOf m).Nodup)
    {p : Node × Nat} (hp : p ∈ m) : lookupCount m p.1 = some p.2 := by
  induction m with
  | nil => cases hp
  | cons q rest ih =>
    unfold keysOf at hnd
    rw [List.map_cons, List.nodup_cons] at hnd
    rcases List.mem_cons.mp hp with hp | hp
    · subst hp
      unfold lookupCount
      rw [List.find?_cons_of_pos _ (by simp)]
      rfl
    · have hne : ¬ q.1 = p.1 := by
        intro hq
        exact hnd.1 (hq ▸ List.mem_map_of_mem (·.1) hp)
      unfold lookupCount
      rw [List.find?_cons_of_neg _ (by simpa using hne)]
      exact ih hnd.2 hp

theorem mem_keys_lookup {m : List (Node × Nat)} {k : Node} (h : k ∈ keysOf m) :
    ∃ c, lookupCount m k = some c := by
  unfold keysOf at h
  obtain ⟨p, hp, hpk⟩ := List.mem_map.mp h
  have : (m.find? (fun q => decide (q.1 = k))).isSome := by
    rw [List.find?_isSome]
    exact ⟨p, hp, by simpa using hpk⟩
  obtain ⟨q, hq⟩ := Option.isSome_iff_exists.mp this
  exact ⟨q.2, by unfold lookupCount; rw [hq]; rfl⟩

theorem lookup_none_of_not_mem {m : List (Node × Nat)} {k : Node} (h : k ∉ keysOf m) :
    lookupCount m k = none := by
  unfold lookupCount
  have hff : m.find? (fun p => decide (p.1 = k)) = none := by
    rw [List.find?_eq_none]
    intro p hp
    simp only [decide_eq_true_eq]
    intro hpk
    exact h (hpk ▸ List.mem_map_of_mem (·.1) hp)
  rw [hff]
  rfl

theorem keysOf_append (m1 m2 : List (Node × Nat)) :
    keysOf (m1 ++ m2) = keysOf m1 ++ keysOf m2 := by
  unfold keysOf; rw [List.map_append]

theorem insertZero_mem (m : List (Node × Nat)) (k : Node) :
    ∀ p ∈ insertZero m k, p ∈ m ∨ (p = (k, 0) ∧ k ∉ keysOf m) := by
  intro p hp
  unfold insertZero at hp
  by_cases hk : k ∈ keysOf m
  · rw [if_pos hk] at hp; exact Or.inl hp
  · rw [if_neg hk] at hp
    rcases List.mem_append.mp hp with hp | hp
    · exact Or.inl hp
    · rcases List.mem_singleton.mp hp with hp
      exact Or.inr ⟨hp, hk⟩

theorem insertZero_keys (m : List (Node × Nat)) (k : Node) :
    keysOf (insertZero m k) = if k ∈ keysOf m then keysOf m else keysOf m ++ [k] := by
  unfold insertZero
  by_cases hk : k ∈ keysOf m
  · rw [if_pos hk, if_pos hk]
  · rw [if_neg hk, if_neg hk, keysOf_append]
    rfl

theorem bumpDest_mem (m : List (Node × Nat)) (k : Node) :
    ∀ p' ∈ bumpDest m k,
      (∃ p ∈ m, p'.1 = p.1 ∧ p'.2 = p.2 + (if p.1 = k then 1 else 0)) ∨
      (p' = (k, 1) ∧ k ∉ keysOf m) := by
  intro p' hp'
  unfold bumpDest at hp'
  by_cases hk : k ∈ keysOf m
  · rw [if_pos hk] at hp'
    obtain ⟨p, hp, hpe⟩ := List.mem_map.mp hp'
    left
    refine ⟨p, hp, ?_⟩
    by_cases hpk : p.1 = k
    · rw [if_pos hpk] at hpe
      rw [← hpe, if_pos hpk]
      exact ⟨rfl, rfl⟩
    · rw [if_neg hpk] at hpe
      rw [← hpe, if_neg hpk]
      exact ⟨rfl, rfl⟩
  · rw [if_neg hk] at hp'
    rcases List.mem_append.mp hp' with hp' | hp'
    · left
      refine ⟨p', hp', rfl, ?_⟩
      by_cases hpk : p'.1 = k
      · exact absurd (hpk ▸ List.mem_map_of_mem (·.1) hp') hk
      · rw [if_neg hpk, Nat.add_zero]
    · exact Or.inr ⟨List.mem_singleton.mp hp', hk⟩

theorem bumpDest_keys (m : List (Node × Nat)) (k : Node) :
    keysOf (bumpDest m k) = if k ∈ keysOf m then keysOf m else keysOf m ++ [k] := by
  unfold bumpDest
  by_cases hk : k ∈ keysOf m
  · rw [if_pos hk, if_pos hk]
    unfold keysOf
    rw [List.map_map]
    apply List.map_congr_left
    intro p _
    by_cases hpk : p.1 = k
    · show (if p.1 = k then (p.1, p.2 + 1) else p).1 = p.1
      rw [if_pos hpk]
    · show (if p.1 = k then (p.1, p.2 + 1) else p).1 = p.1
      rw [if_neg hpk]
  · rw [if_neg hk, if_neg hk, keysOf_append]
    rfl

theorem initFold_spec (nodes : List Node) :
    ∀ m : List (Node × Nat),
      (keysOf m).Nodup →
      (keysOf (nodes.foldl insertZero m)).Nodup ∧
      (∀ k, k ∈ keysOf (nodes.foldl insertZero m) ↔ k ∈ keysOf m ∨ k ∈ nodes) ∧
      (∀ p ∈ nodes.foldl insertZero m, p ∈ m ∨ p.2 = 0) := by
  induction nodes with
  | nil =>
    intro m hnd
    exact ⟨hnd, fun k => by simp, fun p hp => Or.inl hp⟩
  | cons x rest ih =>
    intro m hnd
    rw [List.foldl_cons]
    have hnd' : (keysOf (insertZero m x)).Nodup := by
      rw [insertZero_keys]
      by_cases hx : x ∈ keysOf m
      · rw [if_pos hx]; exact hnd
      · rw [if_neg hx]
        exact List.Nodup.append hnd (List.nodup_singleton x)
          (by intro a ha hb; rw [List.mem_singleton] at hb; exact hx (hb ▸ ha))
    obtain ⟨c1, c2, c3⟩ := ih (insertZero m x) hnd'
    refine ⟨c1, ?_, ?_⟩
    · intro k
      rw [c2 k, insertZero_keys]
      by_cases hx : x ∈ keysOf m
      · rw [if_pos hx]
        constructor
        · rintro (h | h)
          · exact Or.inl h
          · exact Or.inr (List.mem_cons_of_mem x h)
        · rintro (h | h)
          · exact Or.inl h
          · rcases List.mem_cons.mp h with h | h
            · exact Or.inl (h ▸ hx)
            · exact Or.inr h
      · rw [if_neg hx]
        constructor
        · rintro (h | h)
          · rcases List.mem_append.mp h with h | h
            · exact Or.inl h
            · exact Or.inr (List.mem_cons.mpr (Or.inl (List.mem_singleton.mp h)))
          · exact Or.inr (List.mem_cons_of_mem x h)
        · rintro (h | h)
          · exact Or.inl (List.mem_append_left _ h)
          · rcases List.mem_cons.mp h with h | h
            · exact Or.inl (List.mem_append_right _ (h ▸ List.mem_singleton_self x))
            · exact Or.inr h
    · intro p hp
      rcases c3 p hp with h | h
      · rcases insertZero_mem m x p h with h | h
        · exact Or.inl h
        · exact Or.inr (by rw [h.1])
      · exact Or.inr h

theorem bumpFold_spec (el : List (Node × Node)) :
    ∀ (m : List (Node × Nat)) (f : Node → Nat),
      (keysOf m).Nodup →
      (∀ p ∈ m, p.2 = f p.1) →
      (∀ k, k ∉ keysOf m → f k = 0) →
      (keysOf (el.foldl (fun mm e => bumpDest mm e.2) m)).Nodup ∧
      (∀ k, k ∈ keysOf (el.foldl (fun mm e => bumpDest mm e.2) m) ↔
        k ∈ keysOf m ∨ ∃ e ∈ el, e.2 = k) ∧
      (∀ p ∈ el.foldl (fun mm e => bumpDest mm e.2) m,
        p.2 = f p.1 + el.countP (fun e => decide (e.2 = p.1))) := by
  induction el with
  | nil =>
    intro m f hnd hval _
    refine ⟨hnd, fun k => by simp, fun p hp => ?_⟩
    rw [List.countP_nil, Nat.add_zero]
    exact hval p hp
  | cons e el ih =>
    intro m f hnd hval hout
    rw [List.foldl_cons]
    have hnd' : (keysOf (bumpDest m e.2)).Nodup := by
      rw [bumpDest_keys]
      by_cases hk : e.2 ∈ keysOf m
      · rw [if_pos hk]; exact hnd
      · rw [if_neg hk]
        exact List.Nodup.append hnd (List.nodup_singleton _)
          (by intro a ha hb; rw [List.mem_singleton] at hb; exact hk (hb ▸ ha))
    have hval' : ∀ p ∈ bumpDest m e.2,
        p.2 = (fun k => f k + if k = e.2 then 1 else 0) p.1 := by
      intro p hp
      rcases bumpDest_mem m e.2 p hp with ⟨p0, hp0, hk, hv⟩ | ⟨hp1, hnk⟩
      · show p.2 = f p.1 + if p.1 = e.2 then 1 else 0
        rw [hv, hk, hval p0 hp0]
      · show p.2 = f p.1 + if p.1 = e.2 then 1 else 0
        rw [hp1]
        show 1 = f e.2 + if e.2 = e.2 then 1 else 0
        rw [hout e.2 hnk, if_pos rfl]
    have hout' : ∀ k, k ∉ keysOf (bumpDest m e.2) →
        (fun k => f k + if k = e.2 then 1 else 0) k = 0 := by
      intro k hk
      rw [bumpDest_keys] at hk
      by_cases hke : e.2 ∈ keysOf m
      · rw [if_pos hke] at hk
        show f k + _ = 0
        rw [hout k hk, if_neg (fun hc => hk (by rw [hc]; exact hke)), Nat.add_zero]
      · rw [if_neg hke] at hk
        have hk1 : k ∉ keysOf m := fun hc => hk (List.mem_append_left _ hc)
        have hk2 : ¬ k = e.2 :=
          fun hc => hk (List.mem_append_right _ (hc ▸ List.mem_singleton_self _))
        show f k + _ = 0
        rw [hout k hk1, if_neg hk2, Nat.add_zero]
    obtain ⟨c1, c2, c3⟩ := ih (bumpDest m e.2) (fun k => f k + if k = e.2 then 1 else 0)
      hnd' hval' hout'
    refine ⟨c1, ?_, ?_⟩
    · intro k
      rw [c2 k, bumpDest_keys]
      by_cases hke : e.2 ∈ keysOf m
      · rw [if_pos hke]
        constructor
        · rintro (h | h)
          · exact Or.inl h
          · exact Or.inr ⟨ h.choose, List.mem_cons_of_mem e h.choose_spec.1, h.choose_spec.2⟩
        · rintro (h | ⟨e0, he0, he0k⟩)
          · exact Or.inl h
          · rcases List.mem_cons.mp he0 with he0 | he0
            · exact Or.inl (by rw [← he0k, he0]; exact hke)
            · exact Or.inr ⟨e0, he0, he0k⟩
      · rw [if_neg hke]
        constructor
        · rintro (h | h)
          · rcases List.mem_append.mp h with h | h
            · exact Or.inl h
            · exact Or.inr ⟨e, List.mem_cons_self e el, (List.mem_singleton.mp h).symm⟩
          · exact Or.inr ⟨h.choose, List.mem_cons_of_mem e h.choose_spec.1, h.choose_spec.2⟩
        · rintro (h | ⟨e0, he0, he0k⟩)
          · exact Or.inl (List.mem_append_left _ h)
          · rcases List.mem_cons.mp he0 with he0 | he0
            · exact Or.inl (List.mem_append_right _
                (by rw [List.mem_singleton, ← he0k, he0]))
            · exact Or.inr ⟨e0, he0, he0k⟩
    · intro p hp
      rw [c3 p hp, List.countP_cons]
      show f p.1 + (if p.1 = e.2 then 1 else 0) + _ =
        f p.1 + (el.countP _ + if decide (e.2 = p.1) = true then 1 else 0)
      by_cases hpe : p.1 = e.2
      · rw [if_pos hpe, if_pos (by simpa using hpe.symm)]
        omega
      · rw [if_neg hpe, if_neg (by simpa using fun hc => hpe hc.symm)]
        omega

/-- Characterization of the initialized in-degree map: unique keys, exactly
the nodes together with every edge destination, each key holding the number
of edges pointing at it. -/
theorem buildInDeg_spec (g : Graph Node) :
    (keysOf (buildInDeg g)).Nodup ∧
    (∀ k, k ∈ keysOf (buildInDeg g) ↔ k ∈ g.nodes ∨ ∃ e ∈ g.edges, e.2 = k) ∧
    (∀ p ∈ buildInDeg g, p.2 = countDest g.edges p.1) := by
  obtain ⟨i1, i2, i3⟩ := initFold_spec g.nodes [] (by simp [keysOf])
  have hzero : ∀ p ∈ g.nodes.foldl insertZero [], p.2 = 0 := by
    intro p hp
    rcases i3 p hp with h | h
    · cases h
    · exact h
  obtain ⟨c1, c2, c3⟩ := bumpFold_spec g.edges (g.nodes.foldl insertZero [])
    (fun _ => 0) i1 hzero (fun _ _ => rfl)
  refine ⟨c1, ?_, ?_⟩
  · intro k
    unfold buildInDeg
    rw [c2 k, i2 k]
    constructor
    · rintro ((h | h) | h)
      · cases h
      · exact Or.inl h
      · exact Or.inr h
    · rintro (h | h)
      · exact Or.inl (Or.inr h)
      · exact Or.inr h
  · intro p hp
    have hv := c3 p hp
    unfold countDest
    rw [hv, Nat.zero_add]

/-! ### One neighbor loop, characterized by decrement-attempt counts -/

theorem eq_of_mem_nodup_keys {m : List (Node × Nat)} (hnd : (keysOf m).Nodup)
    {p q : Node × Nat} (hp : p ∈ m) (hq : q ∈ m) (hk : p.1 = q.1) : p = q := by
  have h1 := lookup_of_mem_nodup hnd hp
  have h2 := lookup_of_mem_nodup hnd hq
  rw [hk] at h1
  rw [h1] at h2
  injection h2 with h2
  cases p; cases q
  rw [Prod.mk.injEq]
  exact ⟨hk, h2⟩

/-- The in-degree map after directing `used k` decrement attempts at each
key `k`: keys whose count was positive and exhausted are gone, the others
are decremented. -/
def usedForm (m1 : List (Node × Nat)) (used : Node → Nat) : List (Node × Nat) :=
  (m1.filter (fun p => !(decide (0 < p.2) && decide (p.2 ≤ used p.1)))).map
    (fun p => (p.1, p.2 - used p.1))

/-- One more decrement attempt at `x`. -/
def bumpU (used : Node → Nat) (x : Node) : Node → Nat :=
  fun k => if k = x then used k + 1 else used k

theorem usedForm_zero (m1 : List (Node × Nat)) : usedForm m1 (fun _ => 0) = m1 := by
  unfold usedForm
  rw [List.filter_eq_self.mpr, List.map_congr_left (g := id), List.map_id]
  · intro p _
    show (p.1, p.2 - 0) = p
    rfl
  · intro p _
    simp [Nat.le_zero]
    omega

theorem usedForm_keys_sublist (m1 : List (Node × Nat)) (used : Node → Nat) :
    List.Sublist (keysOf (usedForm m1 used)) (keysOf m1) := by
  unfold usedForm keysOf
  rw [List.map_map]
  exact (List.filter_sublist m1).map _

theorem usedForm_mem {m1 : List (Node × Nat)} {used : Node → Nat} {p' : Node × Nat} :
    p' ∈ usedForm m1 used ↔
      ∃ p ∈ m1, ¬(0 < p.2 ∧ p.2 ≤ used p.1) ∧ p' = (p.1, p.2 - used p.1) := by
  unfold usedForm
  rw [List.mem_map]
  constructor
  · rintro ⟨p, hp, hpe⟩
    rw [List.mem_filter] at hp
    refine ⟨p, hp.1, ?_, hpe.symm⟩
    have := hp.2
    simp only [Bool.not_eq_true', Bool.and_eq_false_iff, decide_eq_false_iff_not] at this
    rcases this with h | h
    · exact fun hc => h hc.1
    · exact fun hc => h hc.2
  · rintro ⟨p, hp, hcond, hpe⟩
    refine ⟨p, ?_, hpe.symm⟩
    rw [List.mem_filter]
    refine ⟨hp, ?_⟩
    simp only [Bool.not_eq_true', Bool.and_eq_false_iff, decide_eq_false_iff_not]
    by_cases h1 : 0 < p.2
    · exact Or.inr (fun hc => hcond ⟨h1, hc⟩)
    · exact Or.inl h1

theorem lookupUsed {m1 : List (Node × Nat)} (hnd : (keysOf m1).Nodup)
    {x : Node} {c : Nat} (hmem : (x, c) ∈ m1) (used : Node → Nat) (hlt : used x < c) :
    lookupCount (usedForm m1 used) x = some (c - used x) := by
  have hmem' : (x, c - used x) ∈ usedForm m1 used := by
    rw [usedForm_mem]
    exact ⟨(x, c), hmem, fun hc => absurd hlt (Nat.not_lt_of_le hc.2), rfl⟩
  have hnd' : (keysOf (usedForm m1 used)).Nodup := (usedForm_keys_sublist m1 used).nodup hnd
  exact lookup_of_mem_nodup hnd' hmem'

theorem lookupUsedNone {m1 : List (Node × Nat)} {x : Node} (hx : x ∉ keysOf m1)
    (used : Node → Nat) : lookupCount (usedForm m1 used) x = none := by
  apply lookup_none_of_not_mem
  intro hc
  exact hx ((usedForm_keys_sublist m1 used).mem hc)

theorem stepSkip {m1 : List (Node × Nat)} {x : Node} (hx : x ∉ keysOf m1)
    (used : Node → Nat) : usedForm m1 (bumpU used x) = usedForm m1 used := by
  unfold usedForm
  have hkey : ∀ p ∈ m1, ¬ p.1 = x := by
    intro p hp hc
    exact hx (hc ▸ List.mem_map_of_mem (·.1) hp)
  rw [List.filter_congr, List.map_congr_left]
  · intro p hp
    rw [List.mem_filter] at hp
    show (p.1, p.2 - bumpU used x p.1) = (p.1, p.2 - used p.1)
    unfold bumpU
    rw [if_neg (hkey p hp.1)]
  · intro p hp
    unfold bumpU
    rw [if_neg (hkey p hp)]

theorem filter_map_fstpred (x : Node) (F : (Node × Nat) → (Node × Nat))
    (hF : ∀ p, (F p).1 = p.1) :
    ∀ l : List (Node × Nat),
      (l.map F).filter (fun p => decide (p.1 ≠ x)) =
        (l.filter (fun p => decide (p.1 ≠ x))).map F := by
  intro l
  induction l with
  | nil => rfl
  | cons p l ih =>
    rw [List.map_cons, List.filter_cons, List.filter_cons]
    by_cases hp : p.1 = x
    · rw [if_neg (by simp [hF p, hp]), if_neg (by simp [hp])]
      exact ih
    · rw [if_pos (by simp [hF p, hp]), if_pos (by simp [hp]), List.map_cons, ih]

theorem filter_filter_comm (P R : (Node × Nat) → Bool) :
    ∀ l : List (Node × Nat),
      (l.filter P).filter R = l.filter (fun p => P p && R p) := by
  intro l
  induction l with
  | nil => rfl
  | cons p l ih =>
    rw [List.filter_cons, List.filter_cons]
    by_cases hp : P p = true
    · rw [if_pos hp, List.filter_cons]
      by_cases hr : R p = true
      · rw [if_pos hr, if_pos (by rw [hp, hr]; rfl), ih]
      · rw [if_neg hr, if_neg (by rw [hp]; simpa using hr), ih]
    · rw [if_neg hp, if_neg (by simp [Bool.eq_false_iff.mpr hp]), ih]

theorem pipeline_congr (l : List (Node × Nat)) (P Q : (Node × Nat) → Bool)
    (F G : (Node × Nat) → (Node × Nat))
    (h1 : ∀ p ∈ l, P p = Q p) (h2 : ∀ p ∈ l, Q p = true → F p = G p) :
    (l.filter P).map F = (l.filter Q).map G := by
  rw [List.filter_congr h1]
  apply List.map_congr_left
  intro p hp
  rw [List.mem_filter] at hp
  exact h2 p hp.1 hp.2

theorem stepRemove {m1 : List (Node × Nat)} (hnd : (keysOf m1).Nodup)
    {x : Node} {c : Nat} (hmem : (x, c) ∈ m1) (used : Node → Nat)
    (heq : c = used x + 1) :
    removeKey (usedForm m1 used) x = usedForm m1 (bumpU used x) := by
  unfold removeKey usedForm
  rw [filter_map_fstpred x (fun p => (p.1, p.2 - used p.1)) (fun p => rfl), filter_filter_comm]
  apply pipeline_congr
  · intro p hp
    by_cases hpx : p.1 = x
    · have hpc : p = (x, c) := eq_of_mem_nodup_keys hnd hp hmem hpx
      subst hpc
      show (_ && decide ((x : Node) ≠ x)) = _
      unfold bumpU
      rw [if_pos rfl, heq]
      simp
    · show (_ && decide (p.1 ≠ x)) = _
      unfold bumpU
      rw [if_neg hpx]
      simp [hpx]
  · intro p hp hq
    have hpx : ¬ p.1 = x := by
      intro hc
      have hpc : p = (x, c) := eq_of_mem_nodup_keys hnd hp hmem hc
      rw [hpc] at hq
      unfold bumpU at hq
      rw [if_pos rfl, heq] at hq
      simp at hq
    show (p.1, p.2 - used p.1) = (p.1, p.2 - bumpU used x p.1)
    unfold bumpU
    rw [if_neg hpx]

theorem stepDecr {m1 : List (Node × Nat)} (hnd : (keysOf m1).Nodup)
    {x : Node} {c : Nat} (hmem : (x, c) ∈ m1) (used : Node → Nat)
    (hlt : used x + 1 < c) :
    decrKey (usedForm m1 used) x = usedForm m1 (bumpU used x) := by
  unfold decrKey usedForm
  rw [List.map_map]
  apply pipeline_congr
  · intro p hp
    by_cases hpx : p.1 = x
    · have hpc : p = (x, c) := eq_of_mem_nodup_keys hnd hp hmem hpx
      subst hpc
      unfold bumpU
      rw [if_pos hpx]
      have h1 : ¬ c ≤ used x := by omega
      have h2 : ¬ c ≤ used x + 1 := by omega
      simp [h1, h2]
    · unfold bumpU
      rw [if_neg hpx]
  · intro p hp _
    by_cases hpx : p.1 = x
    · have hpc : p = (x, c) := eq_of_mem_nodup_keys hnd hp hmem hpx
      subst hpc
      show (if (x : Node) = x then ((x : Node), c - used x - 1) else (x, c - used x)) =
        (x, c - bumpU used x x)
      rw [if_pos rfl]
      unfold bumpU
      rw [if_pos rfl, Prod.mk.injEq]
      exact ⟨rfl, by omega⟩
    · show (if p.1 = x then (p.1, p.2 - used p.1 - 1) else (p.1, p.2 - used p.1)) =
        (p.1, p.2 - bumpU used x p.1)
      rw [if_neg hpx]
      unfold bumpU
      rw [if_neg hpx]

/-- Full characterization of the neighbor loop: starting from the map in
`used`-form, processing `ns` yields the map in `used + count`-form, and the
appended queue entries are exactly the keys whose positive count gets
exhausted, each once. -/
theorem stepFold_spec {m1 : List (Node × Nat)} (hnd : (keysOf m1).Nodup) :
    ∀ (ns : List Node) (used : Node → Nat) (acc : List Node),
      (∀ p ∈ m1, used p.1 + ns.count p.1 ≤ p.2) →
      (∀ k, k ∈ acc ↔ ∃ p ∈ m1, p.1 = k ∧ 0 < p.2 ∧ p.2 ≤ used k) →
      acc.Nodup →
      (ns.foldl stepOne (usedForm m1 used, acc)).1 =
          usedForm m1 (fun k => used k + ns.count k) ∧
      (∀ k, k ∈ (ns.foldl stepOne (usedForm m1 used, acc)).2 ↔
          ∃ p ∈ m1, p.1 = k ∧ 0 < p.2 ∧ p.2 ≤ used k + ns.count k) ∧
      (ns.foldl stepOne (usedForm m1 used, acc)).2.Nodup := by
  intro ns
  induction ns with
  | nil =>
    intro used acc _ haccm haccnd
    refine ⟨?_, ?_, haccnd⟩
    · rw [List.foldl_nil]
      congr 1
    · intro k
      rw [List.foldl_nil]
      rw [haccm k]
      constructor
      · rintro ⟨p, hp, h1, h2, h3⟩
        exact ⟨p, hp, h1, h2, by rw [List.count_nil]; omega⟩
      · rintro ⟨p, hp, h1, h2, h3⟩
        rw [List.count_nil] at h3
        exact ⟨p, hp, h1, h2, by omega⟩
  | cons x rest ih =>
    intro used acc hbound haccm haccnd
    rw [List.foldl_cons]
    -- one step at `x`
    have hxcount : (List.count x (x :: rest)) = rest.count x + 1 := by
      rw [List.count_cons, if_pos (by simp)]
    have hcount_ne : ∀ k, ¬ k = x → List.count k (x :: rest) = rest.count k := by
      intro k hk
      rw [List.count_cons,
        if_neg (by simp only [beq_iff_eq]; exact fun h => hk h.symm), Nat.add_zero]
    by_cases hxk : x ∈ keysOf m1
    · -- x is a present neighbor; its count must exceed used x
      obtain ⟨c0, hc0⟩ := mem_keys_lookup hxk
      have hxc : (x, c0) ∈ m1 := lookupCount_some hc0
      have hbx : used x + List.count x (x :: rest) ≤ c0 := hbound (x, c0) hxc
      rw [hxcount] at hbx
      have hltx : used x < c0 := by omega
      have hlk : lookupCount (usedForm m1 used) x = some (c0 - used x) :=
        lookupUsed hnd hxc used hltx
      have hbound' : ∀ p ∈ m1, bumpU used x p.1 + rest.count p.1 ≤ p.2 := by
        intro p hp
        unfold bumpU
        by_cases hpx : p.1 = x
        · rw [if_pos hpx]
          have hb := hbound p hp
          rw [hpx, hxcount] at hb
          rw [hpx]
          omega
        · rw [if_neg hpx]
          have hb := hbound p hp
          rw [hcount_ne p.1 hpx] at hb
          exact hb

      by_cases hrem : c0 - used x - 1 = 0
      · -- the count is exhausted: remove and enqueue
        have hc0eq : c0 = used x + 1 := by omega
        have hstep : stepOne (usedForm m1 used, acc) x =
            (usedForm m1 (bumpU used x), acc ++ [x]) := by
          unfold stepOne
          rw [hlk]
          show (if c0 - used x - 1 = 0 then _ else _) = _
          rw [if_pos hrem, stepRemove hnd hxc used hc0eq]
        rw [hstep]
        have haccm' : ∀ k, k ∈ acc ++ [x] ↔
            ∃ p ∈ m1, p.1 = k ∧ 0 < p.2 ∧ p.2 ≤ bumpU used x k := by
          intro k
          rw [List.mem_append, List.mem_singleton, haccm k]
          unfold bumpU
          by_cases hk : k = x
          · subst hk
            rw [if_pos rfl]
            constructor
            · intro _
              exact ⟨(k, c0), hxc, rfl, by omega, by omega⟩
            · intro _
              exact Or.inr rfl
          · rw [if_neg hk]
            constructor
            · rintro (h | h)
              · exact h
              · exact absurd h hk
            · intro h
              exact Or.inl h
        have haccnd' : (acc ++ [x]).Nodup := by
          rw [List.nodup_append]
          refine ⟨haccnd, List.nodup_singleton x, ?_⟩
          intro a ha hb
          rw [List.mem_singleton] at hb
          subst hb
          obtain ⟨p, hp, hp1, hp2, hp3⟩ := (haccm a).mp ha
          have hpc : p = (a, c0) := eq_of_mem_nodup_keys hnd hp hxc hp1
          rw [hpc] at hp2 hp3
          omega
        obtain ⟨r1, r2, r3⟩ := ih (bumpU used x) (acc ++ [x]) hbound' haccm' haccnd'
        refine ⟨?_, ?_, r3⟩
        · rw [r1]
          congr 1
          funext k
          unfold bumpU
          by_cases hk : k = x
          · subst hk
            rw [if_pos rfl, hxcount]
            omega
          · rw [if_neg hk, hcount_ne k hk]
        · intro k
          rw [r2 k]
          unfold bumpU
          by_cases hk : k = x
          · subst hk
            rw [if_pos rfl, hxcount]
            constructor
            · rintro ⟨p, hp, h1, h2, h3⟩
              exact ⟨p, hp, h1, h2, by omega⟩
            · rintro ⟨p, hp, h1, h2, h3⟩
              exact ⟨p, hp, h1, h2, by omega⟩
          · rw [if_neg hk, hcount_ne k hk]
      · -- still positive: decrement in place
        have hltx1 : used x + 1 < c0 := by omega
        have hstep : stepOne (usedForm m1 used, acc) x =
            (usedForm m1 (bumpU used x), acc) := by
          unfold stepOne
          rw [hlk]
          show (if c0 - used x - 1 = 0 then _ else _) = _
          rw [if_neg hrem, stepDecr hnd hxc used hltx1]
        rw [hstep]
        have haccm' : ∀ k, k ∈ acc ↔
            ∃ p ∈ m1, p.1 = k ∧ 0 < p.2 ∧ p.2 ≤ bumpU used x k := by
          intro k
          rw [haccm k]
          unfold bumpU
          by_cases hk : k = x
          · subst hk
            rw [if_pos rfl]
            constructor
            · rintro ⟨p, hp, h1, h2, h3⟩
              have hpc : p = (k, c0) := eq_of_mem_nodup_keys hnd hp hxc h1
              rw [hpc] at h2 h3
              omega
            · rintro ⟨p, hp, h1, h2, h3⟩
              have hpc : p = (k, c0) := eq_of_mem_nodup_keys hnd hp hxc h1
              rw [hpc] at h2 h3
              omega
          · rw [if_neg hk]
        obtain ⟨r1, r2, r3⟩ := ih (bumpU used x) acc hbound' haccm' haccnd
        refine ⟨?_, ?_, r3⟩
        · rw [r1]
          congr 1
          funext k
          unfold bumpU
          by_cases hk : k = x
          · subst hk
            rw [if_pos rfl, hxcount]
            omega
          · rw [if_neg hk, hcount_ne k hk]
        · intro k
          rw [r2 k]
          unfold bumpU
          by_cases hk : k = x
          · subst hk
            rw [if_pos rfl, hxcount]
            constructor
            · rintro ⟨p, hp, h1, h2, h3⟩
              exact ⟨p, hp, h1, h2, by omega⟩
            · rintro ⟨p, hp, h1, h2, h3⟩
              exact ⟨p, hp, h1, h2, by omega⟩
          · rw [if_neg hk, hcount_ne k hk]
    · -- x is not a key: nothing happens
      have hstep : stepOne (usedForm m1 used, acc) x = (usedForm m1 used, acc) := by
        unfold stepOne
        rw [lookupUsedNone hxk used]
      rw [hstep]
      have hbound' : ∀ p ∈ m1, used p.1 + rest.count p.1 ≤ p.2 := by
        intro p hp
        have hb := hbound p hp
        have hple : rest.count p.1 ≤ List.count p.1 (x :: rest) := by
          rw [List.count_cons]
          omega
        omega

      obtain ⟨r1, r2, r3⟩ := ih used acc hbound' haccm haccnd
      refine ⟨?_, ?_, r3⟩
      · rw [r1]
        have hkeyne : ∀ p ∈ m1, ¬ p.1 = x := by
          intro p hp hc
          exact hxk (hc ▸ List.mem_map_of_mem (·.1) hp)
        unfold usedForm
        apply pipeline_congr
        · intro p hp
          show (!(decide (0 < p.2) && decide (p.2 ≤ used p.1 + List.count p.1 rest))) =
            (!(decide (0 < p.2) && decide (p.2 ≤ used p.1 + List.count p.1 (x :: rest))))
          rw [hcount_ne p.1 (hkeyne p hp)]
        · intro p hp _
          show (p.1, p.2 - (used p.1 + List.count p.1 rest)) =
            (p.1, p.2 - (used p.1 + List.count p.1 (x :: rest)))
          rw [hcount_ne p.1 (hkeyne p hp)]
      · intro k
        rw [r2 k]
        constructor
        · rintro ⟨p, hp, h1, h2, h3⟩
          refine ⟨p, hp, h1, h2, ?_⟩
          rw [List.count_cons]
          omega
        · rintro ⟨p, hp, h1, h2, h3⟩
          refine ⟨p, hp, h1, h2, ?_⟩
          have hkne : ¬ k = x := by
            intro hc
            subst h1
            exact hxk (hc ▸ List.mem_map_of_mem (·.1) hp)
          rw [hcount_ne k hkne] at h3
          exact h3

theorem removeKey_sub_mem {m : List (Node × Nat)} {x : Node} {p : Node × Nat}
    (hp : p ∈ removeKey m x) : p ∈ m := by
  unfold removeKey at hp
  exact (List.mem_filter.mp hp).1

theorem removeKey_keys_mem {m : List (Node × Nat)} {x k : Node} :
    k ∈ keysOf (removeKey m x) ↔ k ∈ keysOf m ∧ ¬ k = x := by
  unfold removeKey keysOf
  constructor
  · intro h
    obtain ⟨p, hp, hpk⟩ := List.mem_map.mp h
    rw [List.mem_filter] at hp
    refine ⟨hpk ▸ List.mem_map_of_mem (·.1) hp.1, ?_⟩
    have := hp.2
    rw [decide_eq_true_eq] at this
    exact hpk ▸ this
  · rintro ⟨h, hk⟩
    obtain ⟨p, hp, hpk⟩ := List.mem_map.mp h
    apply List.mem_map.mpr
    refine ⟨p, ?_, hpk⟩
    rw [List.mem_filter]
    exact ⟨hp, by rw [decide_eq_true_eq, hpk]; exact hk⟩

theorem removeKey_keys_sublist (m : List (Node × Nat)) (x : Node) :
    List.Sublist (keysOf (removeKey m x)) (keysOf m) := by
  unfold removeKey keysOf
  exact (List.filter_sublist m).map _

theorem removeKey_noop {m : List (Node × Nat)} {x : Node} (hx : x ∉ keysOf m) :
    removeKey m x = m := by
  unfold removeKey
  rw [List.filter_eq_self]
  intro p hp
  rw [decide_eq_true_eq]
  intro hc
  exact hx (hc ▸ List.mem_map_of_mem (·.1) hp)

theorem keys_perm_cons_removeKey {m : List (Node × Nat)} (hnd : (keysOf m).Nodup)
    {x : Node} (hx : x ∈ keysOf m) :
    List.Perm (keysOf m) (x :: keysOf (removeKey m x)) := by
  apply (List.perm_ext_iff_of_nodup hnd ?_).mpr
  · intro k
    rw [List.mem_cons, removeKey_keys_mem]
    constructor
    · intro h
      by_cases hk : k = x
      · exact Or.inl hk
      · exact Or.inr ⟨h, hk⟩
    · rintro (h | h)
      · exact h ▸ hx
      · exact h.1
  · rw [List.nodup_cons]
    refine ⟨?_, (removeKey_keys_sublist m x).nodup hnd⟩
    rw [removeKey_keys_mem]
    exact fun h => h.2 rfl

theorem usedForm_keys_mem {m1 : List (Node × Nat)} {u : Node → Nat} {k : Node} :
    k ∈ keysOf (usedForm m1 u) ↔ ∃ p ∈ m1, p.1 = k ∧ ¬(0 < p.2 ∧ p.2 ≤ u p.1) := by
  unfold keysOf
  constructor
  · intro h
    obtain ⟨p', hp', hpk⟩ := List.mem_map.mp h
    obtain ⟨p, hp, hcond, hpe⟩ := usedForm_mem.mp hp'
    exact ⟨p, hp, by rw [← hpk, hpe], hcond⟩
  · rintro ⟨p, hp, hpk, hcond⟩
    apply List.mem_map.mpr
    exact ⟨(p.1, p.2 - u p.1), usedForm_mem.mpr ⟨p, hp, hcond, rfl⟩, hpk⟩

theorem countP_le_of_imp {α : Type} (l : List α) (p q : α → Bool)
    (h : ∀ a ∈ l, p a = true → q a = true) : l.countP p ≤ l.countP q :=
  List.countP_mono_left h

/-- Splitting an in-degree count at a newly sorted source `x`. -/
theorem countP_split_src (E : List (Node × Node)) (k x : Node) (sorted : List Node)
    (hx : x ∉ sorted) :
    E.countP (fun e => decide (e.2 = k) && decide (e.1 ∉ sorted)) =
      E.countP (fun e => decide (e.2 = k) && decide (e.1 ∉ sorted ++ [x])) +
      E.countP (fun e => decide (e.1 = x) && decide (e.2 = k)) := by
  induction E with
  | nil => rfl
  | cons e E ih =>
    rw [List.countP_cons, List.countP_cons, List.countP_cons]
    have hmem : e.1 ∈ sorted ++ [x] ↔ e.1 ∈ sorted ∨ e.1 = x := by
      rw [List.mem_append, List.mem_singleton]
    have i1 : (decide (e.2 = k) && decide (e.1 ∉ sorted)) = true ↔ e.2 = k ∧ e.1 ∉ sorted := by
      simp
    have i2 : (decide (e.2 = k) && decide (e.1 ∉ sorted ++ [x])) = true ↔
        e.2 = k ∧ ¬(e.1 ∈ sorted ∨ e.1 = x) := by
      simp [hmem]
    have i3 : (decide (e.1 = x) && decide (e.2 = k)) = true ↔ e.1 = x ∧ e.2 = k := by
      simp
    by_cases hd : e.2 = k
    · by_cases hs : e.1 ∈ sorted
      · have hx1 : ¬ e.1 = x := fun hc => hx (hc ▸ hs)
        rw [if_neg (fun hc => ((i1.mp hc).2 hs)),
          if_neg (fun hc => (i2.mp hc).2 (Or.inl hs)),
          if_neg (fun hc => hx1 (i3.mp hc).1), ih]
        omega
      · by_cases hx1 : e.1 = x
        · rw [if_pos (i1.mpr ⟨hd, hs⟩),
            if_neg (fun hc => (i2.mp hc).2 (Or.inr hx1)),
            if_pos (i3.mpr ⟨hx1, hd⟩), ih]
          omega
        · rw [if_pos (i1.mpr ⟨hd, hs⟩),
            if_pos (i2.mpr ⟨hd, fun hc => hc.elim hs hx1⟩),
            if_neg (fun hc => hx1 (i3.mp hc).1), ih]
          omega
    · rw [if_neg (fun hc => hd (i1.mp hc).1),
        if_neg (fun hc => hd (i2.mp hc).1),
        if_neg (fun hc => hd (i3.mp hc).2), ih]
      omega

theorem depsOf_count (E : List (Node × Node)) (x k : Node) :
    (depsOf E x).count k =
      E.countP (fun e => decide (e.1 = x) && decide (e.2 = k)) := by
  unfold depsOf
  rw [List.count_eq_countP, List.countP_map, List.countP_filter]
  apply List.countP_congr
  intro e _
  show (e.2 == k && decide (e.1 = x)) = true ↔
    (decide (e.1 = x) && decide (e.2 = k)) = true
  simp [beq_iff_eq, and_comm]

/-! ### The Kahn loop invariant -/

/-- Number of edges into `k` whose source has not yet been sorted. -/
def cntIn (E : List (Node × Node)) (s : List Node) (k : Node) : Nat :=
  E.countP (fun e => decide (e.2 = k) && decide (e.1 ∉ s))

theorem cntIn_split (E : List (Node × Node)) (k x : Node) (s : List Node)
    (hx : x ∉ s) : cntIn E s k = cntIn E (s ++ [x]) k + (depsOf E x).count k := by
  unfold cntIn
  rw [depsOf_count]
  exact countP_split_src E k x s hx

theorem cntIn_le_append (E : List (Node × Node)) (s t : List Node) (k : Node) :
    cntIn E (s ++ t) k ≤ cntIn E s k := by
  unfold cntIn
  apply countP_le_of_imp
  intro e _ h
  simp only [Bool.and_eq_true, decide_eq_true_eq] at h ⊢
  exact ⟨h.1, fun hc => h.2 (List.mem_append_left t hc)⟩

theorem cntIn_eq_zero (E : List (Node × Node)) (s : List Node) (k : Node) :
    cntIn E s k = 0 ↔ ∀ e ∈ E, e.2 = k → e.1 ∈ s := by
  unfold cntIn
  rw [List.countP_eq_zero]
  constructor
  · intro h e he hk
    have h2 := h e he
    simp only [Bool.and_eq_true, decide_eq_true_eq] at h2
    by_cases hm : e.1 ∈ s
    · exact hm
    · exact absurd ⟨hk, hm⟩ h2
  · intro h e he
    simp only [Bool.and_eq_true, decide_eq_true_eq]
    rintro ⟨h1, h2⟩
    exact h2 (h e he h1)

theorem cntIn_pos_edge {E : List (Node × Node)} {s : List Node} {k : Node}
    (h : 0 < cntIn E s k) : ∃ e ∈ E, e.2 = k ∧ e.1 ∉ s := by
  unfold cntIn at h
  obtain ⟨e, he, hp⟩ := List.countP_pos.mp h
  simp only [Bool.and_eq_true, decide_eq_true_eq] at hp
  exact ⟨e, he, hp.1, hp.2⟩

/-- The loop invariant of `sort_graph`'s while loop: `m` is the current
in-degree map, `q` the queue (head = back), `sorted` the output so far, and
`K0` the key set of the initialized in-degree map. -/
structure KahnInv (E : List (Node × Node)) (K0 : List Node)
    (m : List (Node × Nat)) (q sorted : List Node) : Prop where
  ndKeys : (keysOf m).Nodup
  ndSQ : (sorted ++ q).Nodup
  disjS : ∀ k ∈ sorted, k ∉ keysOf m
  degEq : ∀ p ∈ m, p.2 = cntIn E sorted p.1
  zeroQ : ∀ k ∈ q, cntIn E sorted k = 0
  qZero : ∀ p ∈ m, p.2 = 0 → p.1 ∈ q
  permK : List.Perm (sorted ++ q.filter (fun k => decide (k ∉ keysOf m)) ++ keysOf m) K0
  topo : ∀ e ∈ E, e.2 ∈ sorted → List.Sublist [e.1, e.2] sorted

theorem kahnLoop_nil (dep : Node → List Node) (m : List (Node × Nat))
    (sorted : List Node) : kahnLoop dep m [] sorted = (sorted, m) := by
  unfold kahnLoop
  rfl

theorem kahnLoop_cons (dep : Node → List Node) (m : List (Node × Nat))
    (n : Node) (q sorted : List Node) :
    kahnLoop dep m (n :: q) sorted =
      kahnLoop dep (stepNeighbors (removeKey m n) (dep n)).1
        (q ++ (stepNeighbors (removeKey m n) (dep n)).2) (sorted ++ [n]) := by
  conv_lhs => unfold kahnLoop

theorem perm_shuffle_mid (s F P S : List Node) (n : Node) :
    List.Perm ((s ++ [n]) ++ (F ++ P) ++ S) ((s ++ F) ++ (n :: (S ++ P))) := by
  rw [← Multiset.coe_eq_coe]
  simp only [← Multiset.coe_add, ← Multiset.cons_coe, ← Multiset.singleton_add,
    Multiset.coe_nil, add_zero]
  abel

theorem perm_shuffle_head (s F P S : List Node) (n : Node) :
    List.Perm ((s ++ [n]) ++ (F ++ P) ++ S) ((s ++ (n :: F)) ++ (S ++ P)) := by
  rw [← Multiset.coe_eq_coe]
  simp only [← Multiset.coe_add, ← Multiset.cons_coe, ← Multiset.singleton_add,
    Multiset.coe_nil, add_zero]
  abel

theorem kahnStep_inv {E : List (Node × Node)} {K0 : List Node}
    {m : List (Node × Nat)} {n : Node} {q sorted : List Node}
    (hInv : KahnInv E K0 m (n :: q) sorted) :
    KahnInv E K0 (stepNeighbors (removeKey m n) (depsOf E n)).1
      (q ++ (stepNeighbors (removeKey m n) (depsOf E n)).2) (sorted ++ [n]) := by
  obtain ⟨ndKeys, ndSQ, disjS, hval, zeroQ, qZero, hperm, htopo⟩ := hInv
  have hndS : sorted.Nodup := (List.nodup_append.mp ndSQ).1
  have hdisjSQ : List.Disjoint sorted (n :: q) := (List.nodup_append.mp ndSQ).2.2
  have hndnq : (n :: q).Nodup := (List.nodup_append.mp ndSQ).2.1
  have hnn : n ∉ sorted := fun hc => hdisjSQ hc (List.mem_cons_self n q)
  have hnq : n ∉ q := (List.nodup_cons.mp hndnq).1
  have hndq : q.Nodup := (List.nodup_cons.mp hndnq).2
  have hndm1 : (keysOf (removeKey m n)).Nodup := (removeKey_keys_sublist m n).nodup ndKeys
  have hmem1 : ∀ p ∈ removeKey m n, p ∈ m ∧ ¬ p.1 = n := by
    intro p hp
    have h2 := (List.mem_filter.mp hp).2
    rw [decide_eq_true_eq] at h2
    exact ⟨removeKey_sub_mem hp, h2⟩
  have hm1mem : ∀ p ∈ m, ¬ p.1 = n → p ∈ removeKey m n := by
    intro p hp hpn
    exact List.mem_filter.mpr ⟨hp, by rw [decide_eq_true_eq]; exact hpn⟩
  have hval1 : ∀ p ∈ removeKey m n,
      p.2 = cntIn E (sorted ++ [n]) p.1 + (depsOf E n).count p.1 := by
    intro p hp
    rw [hval p (hmem1 p hp).1]
    exact cntIn_split E p.1 n sorted hnn
  have hbound : ∀ p ∈ removeKey m n, 0 + (depsOf E n).count p.1 ≤ p.2 := by
    intro p hp
    rw [hval1 p hp]
    omega
  have haccm : ∀ k, k ∈ ([] : List Node) ↔
      ∃ p ∈ removeKey m n, p.1 = k ∧ 0 < p.2 ∧ p.2 ≤ (0 : Nat) := by
    intro k
    simp only [List.not_mem_nil, false_iff]
    rintro ⟨p, hp, h1, h2, h3⟩
    omega
  obtain ⟨r1, r2, r3⟩ := stepFold_spec hndm1 (depsOf E n) (fun _ => 0) [] hbound haccm
    List.nodup_nil
  have hSN : stepNeighbors (removeKey m n) (depsOf E n) =
      (depsOf E n).foldl stepOne (usedForm (removeKey m n) (fun _ => 0), []) := by
    rw [usedForm_zero]
    rfl
  have hM1 : (stepNeighbors (removeKey m n) (depsOf E n)).1 =
      usedForm (removeKey m n) (fun k => (depsOf E n).count k) := by
    rw [hSN, r1]
    congr 1
    funext k
    exact Nat.zero_add _
  have hP : ∀ k, k ∈ (stepNeighbors (removeKey m n) (depsOf E n)).2 ↔
      ∃ p ∈ removeKey m n, p.1 = k ∧ 0 < p.2 ∧ p.2 ≤ (depsOf E n).count k := by
    intro k
    rw [hSN, r2 k]
    constructor
    · rintro ⟨p, hp, h1, h2, h3⟩
      exact ⟨p, hp, h1, h2, by omega⟩
    · rintro ⟨p, hp, h1, h2, h3⟩
      exact ⟨p, hp, h1, h2, by omega⟩
  have hPnd : (stepNeighbors (removeKey m n) (depsOf E n)).2.Nodup := by
    rw [hSN]
    exact r3
  have hkeyMsub : ∀ k, k ∈ keysOf (stepNeighbors (removeKey m n) (depsOf E n)).1 →
      k ∈ keysOf (removeKey m n) := by
    intro k hk
    rw [hM1] at hk
    exact (usedForm_keys_sublist _ _).subset hk
  have hkeyM : ∀ k, k ∈ keysOf (stepNeighbors (removeKey m n) (depsOf E n)).1 ↔
      ∃ p ∈ removeKey m n, p.1 = k ∧
        ¬(0 < p.2 ∧ p.2 ≤ (depsOf E n).count k) := by
    intro k
    rw [hM1, usedForm_keys_mem]
    constructor
    · rintro ⟨p, hp, h1, h2⟩
      refine ⟨p, hp, h1, ?_⟩
      rw [← h1]
      exact h2
    · rintro ⟨p, hp, h1, h2⟩
      refine ⟨p, hp, h1, ?_⟩
      rw [h1]
      exact h2
  have hPkey : ∀ k ∈ (stepNeighbors (removeKey m n) (depsOf E n)).2,
      k ∈ keysOf (removeKey m n) := by
    intro k hk
    obtain ⟨p, hp, h1, _, _⟩ := (hP k).mp hk
    exact h1 ▸ List.mem_map_of_mem (·.1) hp
  have hcompl : ∀ k, k ∈ keysOf (removeKey m n) →
      (k ∈ keysOf (stepNeighbors (removeKey m n) (depsOf E n)).1 ↔
        k ∉ (stepNeighbors (removeKey m n) (depsOf E n)).2) := by
    intro k hk
    obtain ⟨c, hc⟩ := mem_keys_lookup hk
    have hpc : (k, c) ∈ removeKey m n := lookupCount_some hc
    constructor
    · intro hM hp
      obtain ⟨p, hp', h1, h2, h3⟩ := (hP k).mp hp
      obtain ⟨p2, hp2, h12, h22⟩ := (hkeyM k).mp hM
      have hpp : p = p2 := eq_of_mem_nodup_keys hndm1 hp' hp2 (by rw [h1, h12])
      subst hpp
      exact h22 ⟨h2, h3⟩
    · intro hp
      apply (hkeyM k).mpr
      refine ⟨(k, c), hpc, rfl, ?_⟩
      intro hcond
      exact hp ((hP k).mpr ⟨(k, c), hpc, rfl, hcond.1, hcond.2⟩)
  have hPnotM : ∀ k ∈ (stepNeighbors (removeKey m n) (depsOf E n)).2,
      k ∉ keysOf (stepNeighbors (removeKey m n) (depsOf E n)).1 := by
    intro k hk hM
    exact ((hcompl k (hPkey k hk)).mp hM) hk
  have hndM : (keysOf (stepNeighbors (removeKey m n) (depsOf E n)).1).Nodup := by
    rw [hM1]
    exact (usedForm_keys_sublist _ _).nodup hndm1
  have hpartition : List.Perm (keysOf (removeKey m n))
      (keysOf (stepNeighbors (removeKey m n) (depsOf E n)).1 ++
        (stepNeighbors (removeKey m n) (depsOf E n)).2) := by
    apply (List.perm_ext_iff_of_nodup hndm1 ?_).mpr
    · intro k
      rw [List.mem_append]
      constructor
      · intro hk
        by_cases hM : k ∈ keysOf (stepNeighbors (removeKey m n) (depsOf E n)).1
        · exact Or.inl hM
        · obtain ⟨c, hc⟩ := mem_keys_lookup hk
          have hpc := lookupCount_some hc
          right
          apply (hP k).mpr
          by_cases hcond : 0 < c ∧ c ≤ (depsOf E n).count k
          · exact ⟨(k, c), hpc, rfl, hcond.1, hcond.2⟩
          · exact absurd ((hkeyM k).mpr ⟨(k, c), hpc, rfl, hcond⟩) hM
      · rintro (h | h)
        · exact hkeyMsub k h
        · exact hPkey k h
    · rw [List.nodup_append]
      refine ⟨hndM, hPnd, ?_⟩
      intro a ha hb
      exact hPnotM a hb ha
  have hvalM : ∀ p ∈ (stepNeighbors (removeKey m n) (depsOf E n)).1,
      p.2 = cntIn E (sorted ++ [n]) p.1 := by
    intro p' hp'
    rw [hM1] at hp'
    obtain ⟨p, hp, hcond, hpe⟩ := usedForm_mem.mp hp'
    have hv := hval1 p hp
    rw [hpe]
    show p.2 - (depsOf E n).count p.1 = cntIn E (sorted ++ [n]) p.1
    omega
  have hq_keys : ∀ k ∈ q, (k ∈ keysOf m ↔
      k ∈ keysOf (stepNeighbors (removeKey m n) (depsOf E n)).1) := by
    intro k hkq
    constructor
    · intro hk
      obtain ⟨c, hc⟩ := mem_keys_lookup hk
      have hpc : (k, c) ∈ m := lookupCount_some hc
      have hkn : ¬ k = n := fun hc2 => hnq (hc2 ▸ hkq)
      have hpc1 : (k, c) ∈ removeKey m n := hm1mem (k, c) hpc hkn
      have hc0 : c = 0 := by
        have := hval (k, c) hpc
        rw [zeroQ k (List.mem_cons_of_mem n hkq)] at this
        exact this
      apply (hkeyM k).mpr
      refine ⟨(k, c), hpc1, rfl, ?_⟩
      rw [hc0]
      rintro ⟨h1, _⟩
      exact absurd h1 (by omega)
    · intro hk
      have := hkeyMsub k hk
      rw [removeKey_keys_mem] at this
      exact this.1
  -- the new invariant, field by field
  refine ⟨hndM, ?_, ?_, hvalM, ?_, ?_, ?_, ?_⟩
  · -- ndSQ
    rw [List.nodup_append]
    refine ⟨?_, ?_, ?_⟩
    · rw [List.nodup_append]
      refine ⟨hndS, List.nodup_singleton n, ?_⟩
      intro a ha hb
      rw [List.mem_singleton] at hb
      exact hnn (hb ▸ ha)
    · rw [List.nodup_append]
      refine ⟨hndq, hPnd, ?_⟩
      intro a ha hb
      obtain ⟨p, hp, h1, h2, h3⟩ := (hP a).mp hb
      have hz := zeroQ a (List.mem_cons_of_mem n ha)
      have hv := hval p (hmem1 p hp).1
      rw [h1, hz] at hv
      omega
    · intro a ha hb
      rw [List.mem_append] at ha hb
      rcases hb with hb | hb
      · rcases ha with ha | ha
        · exact hdisjSQ ha (List.mem_cons_of_mem n hb)
        · rw [List.mem_singleton] at ha
          exact hnq (ha ▸ hb)
      · have hak := hPkey a hb
        rw [removeKey_keys_mem] at hak
        rcases ha with ha | ha
        · exact disjS a ha hak.1
        · rw [List.mem_singleton] at ha
          exact hak.2 ha
  · -- disjS
    intro k hk hM
    have hk1 := hkeyMsub k hM
    rw [removeKey_keys_mem] at hk1
    rw [List.mem_append] at hk
    rcases hk with hk | hk
    · exact disjS k hk hk1.1
    · rw [List.mem_singleton] at hk
      exact hk1.2 hk
  · -- zeroQ
    intro k hk
    rw [List.mem_append] at hk
    rcases hk with hk | hk
    · have := cntIn_le_append E sorted [n] k
      rw [zeroQ k (List.mem_cons_of_mem n hk)] at this
      omega
    · obtain ⟨p, hp, h1, h2, h3⟩ := (hP k).mp hk
      have hv := hval1 p hp
      rw [h1] at hv
      omega
  · -- qZero
    intro p' hp' hz
    rw [hM1] at hp'
    obtain ⟨p, hp, hcond, hpe⟩ := usedForm_mem.mp hp'
    have hv := hval1 p hp
    rw [hpe] at hz
    have hz2 : p.2 - (depsOf E n).count p.1 = 0 := hz
    have hp2z : p.2 = 0 := by
      by_cases h0 : 0 < p.2
      · exact absurd ⟨h0, by omega⟩ hcond
      · omega
    have := qZero p (hmem1 p hp).1 hp2z
    rw [List.mem_cons] at this
    rcases this with h | h
    · exact absurd h (hmem1 p hp).2
    · rw [hpe]
      exact List.mem_append_left _ h
  · -- permK
    have hfP : (stepNeighbors (removeKey m n) (depsOf E n)).2.filter
        (fun k => decide (k ∉ keysOf (stepNeighbors (removeKey m n) (depsOf E n)).1)) =
        (stepNeighbors (removeKey m n) (depsOf E n)).2 := by
      apply List.filter_eq_self.mpr
      intro a ha
      rw [decide_eq_true_eq]
      exact hPnotM a ha
    have hfq : q.filter
        (fun k => decide (k ∉ keysOf (stepNeighbors (removeKey m n) (depsOf E n)).1)) =
        q.filter (fun k => decide (k ∉ keysOf m)) := by
      apply List.filter_congr
      intro k hk
      rw [decide_eq_decide]
      exact not_congr (hq_keys k hk).symm
    rw [List.filter_append, hfP, hfq]
    by_cases hn : n ∈ keysOf m
    · have hkm : List.Perm (keysOf m) (n :: keysOf (removeKey m n)) :=
        keys_perm_cons_removeKey ndKeys hn
      have hfn : (n :: q).filter (fun k => decide (k ∉ keysOf m)) =
          q.filter (fun k => decide (k ∉ keysOf m)) := by
        rw [List.filter_cons, if_neg (by simp [hn])]
      rw [hfn] at hperm
      refine List.Perm.trans (perm_shuffle_mid sorted
        (q.filter (fun k => decide (k ∉ keysOf m)))
        (stepNeighbors (removeKey m n) (depsOf E n)).2
        (keysOf (stepNeighbors (removeKey m n) (depsOf E n)).1) n) ?_
      refine List.Perm.trans ?_ hperm
      apply List.Perm.append_left
      exact (hkm.trans (List.Perm.cons n hpartition)).symm
    · have hm1 : removeKey m n = m := removeKey_noop hn
      have hfn : (n :: q).filter (fun k => decide (k ∉ keysOf m)) =
          n :: q.filter (fun k => decide (k ∉ keysOf m)) := by
        rw [List.filter_cons, if_pos (by simp [hn])]
      rw [hfn] at hperm
      refine List.Perm.trans (perm_shuffle_head sorted
        (q.filter (fun k => decide (k ∉ keysOf m)))
        (stepNeighbors (removeKey m n) (depsOf E n)).2
        (keysOf (stepNeighbors (removeKey m n) (depsOf E n)).1) n) ?_
      refine List.Perm.trans ?_ hperm
      apply List.Perm.append_left
      exact hpartition.symm.trans (List.Perm.of_eq (congrArg keysOf hm1))
  · -- topo
    intro e he hmem
    rw [List.mem_append, List.mem_singleton] at hmem
    rcases hmem with hmem | hmem
    · exact (htopo e he hmem).trans (List.sublist_append_left _ _)
    · have hz := zeroQ n (List.mem_cons_self n q)
      have hsrc : e.1 ∈ sorted := (cntIn_eq_zero E sorted n).mp hz e he hmem
      have h1 : List.Sublist [e.1] sorted := List.singleton_sublist.mpr hsrc
      rw [hmem]
      exact List.Sublist.append h1 (List.Sublist.refl [n])

theorem kahnLoop_inv (E : List (Node × Node)) (K0 : List Node) :
    ∀ (N : Nat) (m : List (Node × Nat)) (q sorted : List Node),
      m.length + q.length ≤ N → KahnInv E K0 m q sorted →
      KahnInv E K0 (kahnLoop (depsOf E) m q sorted).2 []
        (kahnLoop (depsOf E) m q sorted).1 := by
  intro N
  induction N with
  | zero =>
    intro m q sorted hlen hInv
    have hq : q = [] := List.eq_nil_of_length_eq_zero (by omega)
    subst hq
    rw [kahnLoop_nil]
    exact hInv
  | succ N ih =>
    intro m q sorted hlen hInv
    cases q with
    | nil =>
      rw [kahnLoop_nil]
      exact hInv
    | cons n q =>
      rw [kahnLoop_cons]
      apply ih
      · have h1 := stepNeighbors_length (removeKey m n) (depsOf E n)
        have h2 : (removeKey m n).length ≤ m.length := List.length_filter_le _ _
        rw [List.length_append]
        simp only [List.length_cons] at hlen
        omega
      · exact kahnStep_inv hInv

theorem kahnInit (g : Graph Node) (seed : List Node) (hseed : ValidSeed g seed) :
    KahnInv g.edges (keysOf (buildInDeg g)) (buildInDeg g) seed.reverse [] := by
  obtain ⟨b1, b2, b3⟩ := buildInDeg_spec g
  have hce : ∀ k, countDest g.edges k = cntIn g.edges [] k := by
    intro k
    unfold countDest cntIn
    apply List.countP_congr
    intro e _
    simp
  have hzmem : ∀ k, k ∈ zeroKeys (buildInDeg g) ↔
      ∃ p ∈ buildInDeg g, p.1 = k ∧ p.2 = 0 := by
    intro k
    unfold zeroKeys
    rw [List.mem_map]
    constructor
    · rintro ⟨p, hp, hpk⟩
      rw [List.mem_filter] at hp
      have := hp.2
      rw [decide_eq_true_eq] at this
      exact ⟨p, hp.1, hpk, this⟩
    · rintro ⟨p, hp, hpk, hpz⟩
      exact ⟨p, List.mem_filter.mpr ⟨hp, by rw [decide_eq_true_eq]; exact hpz⟩, hpk⟩
  have hseedmem : ∀ k ∈ seed.reverse, ∃ p ∈ buildInDeg g, p.1 = k ∧ p.2 = 0 := by
    intro k hk
    rw [List.mem_reverse] at hk
    exact (hzmem k).mp (hseed.mem_iff.mp hk)
  have hseedkeys : ∀ k ∈ seed.reverse, k ∈ keysOf (buildInDeg g) := by
    intro k hk
    obtain ⟨p, hp, hpk, _⟩ := hseedmem k hk
    exact hpk ▸ List.mem_map_of_mem (·.1) hp
  have hndz : (zeroKeys (buildInDeg g)).Nodup := by
    have hsub : List.Sublist (zeroKeys (buildInDeg g)) (keysOf (buildInDeg g)) := by
      unfold zeroKeys keysOf
      exact (List.filter_sublist (buildInDeg g)).map (·.1)
    exact hsub.nodup b1
  refine ⟨b1, ?_, ?_, ?_, ?_, ?_, ?_, ?_⟩
  · rw [List.nil_append, List.nodup_reverse]
    exact hseed.symm.nodup hndz
  · intro k hk
    cases hk
  · intro p hp
    rw [b3 p hp]
    exact hce p.1
  · intro k hk
    obtain ⟨p, hp, hpk, hpz⟩ := hseedmem k hk
    rw [← hce k, ← hpk, ← b3 p hp]
    exact hpz
  · intro p hp hz
    rw [List.mem_reverse]
    apply hseed.mem_iff.mpr
    apply (hzmem p.1).mpr
    exact ⟨p, hp, rfl, hz⟩
  · rw [List.nil_append]
    have hf : seed.reverse.filter (fun k => decide (k ∉ keysOf (buildInDeg g))) = [] := by
      rw [List.filter_eq_nil_iff]
      intro k hk
      rw [decide_eq_true_eq, Decidable.not_not]
      exact hseedkeys k hk
    rw [hf, List.nil_append]
  · intro e _ hmem
    cases hmem

theorem sort_graph_ok {g : Graph Node} {seed l : List Node} (hseed : ValidSeed g seed)
    (h : sort_graph g seed = .ok l) :
    l.Perm (keysOf (buildInDeg g)) ∧ l.Nodup ∧
      ∀ e ∈ g.edges, e.2 ∈ l → List.Sublist [e.1, e.2] l := by
  have hInv := kahnLoop_inv g.edges (keysOf (buildInDeg g))
    ((buildInDeg g).length + seed.reverse.length) (buildInDeg g) seed.reverse []
    (le_refl _) (kahnInit g seed hseed)
  rw [show sort_graph g seed =
    (if (kahnLoop (depsOf g.edges) (buildInDeg g) seed.reverse []).2.isEmpty
      then .ok (kahnLoop (depsOf g.edges) (buildInDeg g) seed.reverse []).1
      else .error g.edges) from rfl] at h
  by_cases he : (kahnLoop (depsOf g.edges) (buildInDeg g) seed.reverse []).2.isEmpty
  · rw [if_pos he] at h
    injection h with h
    subst h
    rw [List.isEmpty_iff] at he
    obtain ⟨ndKeys, ndSQ, disjS, hval, zeroQ, qZero, hperm, htopo⟩ := hInv
    rw [he] at hperm
    refine ⟨?_, ?_, htopo⟩
    · have : keysOf ([] : List (Node × Nat)) = [] := rfl
      rw [this, List.append_nil] at hperm
      simpa using hperm
    · rw [List.append_nil] at ndSQ
      exact ndSQ
  · rw [if_neg he] at h
    exact Except.noConfusion h

theorem sort_graph_err {g : Graph Node} {seed : List Node} {L : List (Node × Node)}
    (hseed : ValidSeed g seed) (h : sort_graph g seed = .error L) :
    L = g.edges ∧ ∃ (sorted resid : List Node), resid ≠ [] ∧
      List.Perm (sorted ++ resid) (keysOf (buildInDeg g)) ∧
      ∀ k ∈ resid, ∃ e ∈ g.edges, e.2 = k ∧ e.1 ∉ sorted := by
  have hInv := kahnLoop_inv g.edges (keysOf (buildInDeg g))
    ((buildInDeg g).length + seed.reverse.length) (buildInDeg g) seed.reverse []
    (le_refl _) (kahnInit g seed hseed)
  rw [show sort_graph g seed =
    (if (kahnLoop (depsOf g.edges) (buildInDeg g) seed.reverse []).2.isEmpty
      then .ok (kahnLoop (depsOf g.edges) (buildInDeg g) seed.reverse []).1
      else .error g.edges) from rfl] at h
  by_cases he : (kahnLoop (depsOf g.edges) (buildInDeg g) seed.reverse []).2.isEmpty
  · rw [if_pos he] at h
    exact Except.noConfusion h
  · rw [if_neg he] at h
    injection h with h
    refine ⟨h.symm, ?_⟩
    obtain ⟨ndKeys, ndSQ, disjS, hval, zeroQ, qZero, hperm, htopo⟩ := hInv
    refine ⟨(kahnLoop (depsOf g.edges) (buildInDeg g) seed.reverse []).1,
      keysOf (kahnLoop (depsOf g.edges) (buildInDeg g) seed.reverse []).2, ?_, ?_, ?_⟩
    · intro hc
      apply he
      rw [List.isEmpty_iff]
      unfold keysOf at hc
      exact List.map_eq_nil_iff.mp hc
    · have hf : ([] : List Node).filter
          (fun k => decide (k ∉ keysOf (kahnLoop (depsOf g.edges) (buildInDeg g)
            seed.reverse []).2)) = [] := rfl
      rw [hf, List.append_nil] at hperm
      exact hperm
    · intro k hk
      obtain ⟨c, hc⟩ := mem_keys_lookup hk
      have hpc := lookupCount_some hc
      have hcz : ¬ c = 0 := by
        intro hc0
        have := qZero (k, c) hpc hc0
        cases this
      have hv := hval (k, c) hpc
      have hpos : 0 < cntIn g.edges
          (kahnLoop (depsOf g.edges) (buildInDeg g) seed.reverse []).1 k := by
        rw [← hv]
        omega
      exact cntIn_pos_edge hpos

/-! ### Cycles -/

/-- The edge relation of an adjacency list. -/
def EdgeRel (E : List (Node × Node)) (a b : Node) : Prop := (a, b) ∈ E

/-- A directed cycle: a nonempty edge path from some node back to itself. -/
def hasCycle (E : List (Node × Node)) : Prop :=
  ∃ n, Relation.TransGen (EdgeRel E) n n

theorem transGen_src {E : List (Node × Node)} {a b : Node}
    (h : Relation.TransGen (EdgeRel E) a b) : ∃ e ∈ E, e.1 = a := by
  induction h with
  | single h1 => exact ⟨_, h1, rfl⟩
  | tail h1 h2 ih => exact ih

theorem transGen_dest {E : List (Node × Node)} {a b : Node}
    (h : Relation.TransGen (EdgeRel E) a b) : ∃ e ∈ E, e.2 = b := by
  induction h with
  | single h1 => exact ⟨_, h1, rfl⟩
  | tail h1 h2 ih => exact ⟨_, h2, rfl⟩

theorem no_cycle_single_edge {a b : Node} (hab : ¬ a = b) : ¬ hasCycle [(a, b)] := by
  rintro ⟨n, h⟩
  obtain ⟨e1, he1, hs⟩ := transGen_src h
  obtain ⟨e2, he2, hd⟩ := transGen_dest h
  rw [List.mem_singleton] at he1 he2
  subst he1
  subst he2
  exact hab (hs.trans hd.symm)

/-- If every residual node has an in-edge from a residual node, the graph has
a cycle (pigeonhole along the chain of predecessors). -/
theorem cycle_of_all_preds {E : List (Node × Node)} {resid : List Node}
    (hne : resid ≠ []) (hpred : ∀ k ∈ resid, ∃ j ∈ resid, (j, k) ∈ E) :
    hasCycle E := by
  obtain ⟨k0, hk0⟩ := List.exists_mem_of_ne_nil resid hne
  have hch : ∀ k, ∃ j, k ∈ resid → j ∈ resid ∧ (j, k) ∈ E := by
    intro k
    by_cases h : k ∈ resid
    · obtain ⟨j, h1, h2⟩ := hpred k h
      exact ⟨j, fun _ => ⟨h1, h2⟩⟩
    · exact ⟨k0, fun hc => absurd hc h⟩
  choose f hf using hch
  have hmemseq : ∀ i, f^[i] k0 ∈ resid := by
    intro i
    induction i with
    | zero => exact hk0
    | succ i ih =>
      rw [Function.iterate_succ_apply']
      exact (hf _ ih).1
  have hedge : ∀ i, (f^[i + 1] k0, f^[i] k0) ∈ E := by
    intro i
    rw [Function.iterate_succ_apply']
    exact (hf _ (hmemseq i)).2
  have hchain : ∀ i d, Relation.TransGen (EdgeRel E) (f^[i + d + 1] k0) (f^[i] k0) := by
    intro i d
    induction d with
    | zero => exact Relation.TransGen.single (hedge i)
    | succ d ih => exact Relation.TransGen.head (hedge (i + d + 1)) ih
  have hcard : resid.toFinset.card < (Finset.range (resid.length + 1)).card := by
    rw [Finset.card_range]
    exact Nat.lt_succ_of_le resid.toFinset_card_le
  have hmapsto : ∀ i ∈ Finset.range (resid.length + 1), f^[i] k0 ∈ resid.toFinset := by
    intro i _
    exact List.mem_toFinset.mpr (hmemseq i)
  obtain ⟨i, hi, j, hj, hij, heq⟩ :=
    Finset.exists_ne_map_eq_of_card_lt_of_maps_to hcard hmapsto
  rcases Nat.lt_or_ge i j with hlt | hge
  · obtain ⟨d, hd⟩ : ∃ d, j = i + d + 1 := ⟨j - i - 1, by omega⟩
    refine ⟨f^[i] k0, ?_⟩
    have hc := hchain i d
    rw [← hd] at hc
    nth_rewrite 1 [heq]
    exact hc
  · have hlt2 : j < i := by omega
    obtain ⟨d, hd⟩ : ∃ d, i = j + d + 1 := ⟨i - j - 1, by omega⟩
    refine ⟨f^[j] k0, ?_⟩
    have hc := hchain j d
    rw [← hd] at hc
    nth_rewrite 1 [← heq]
    exact hc

theorem indexOf_lt_of_pair_sublist {l : List Node} (hnd : l.Nodup) {a b : Node}
    (h : List.Sublist [a, b] l) : l.indexOf a < l.indexOf b := by
  induction l with
  | nil => cases (List.sublist_nil.mp h)
  | cons x t ih =>
    have hxt : x ∉ t := (List.nodup_cons.mp hnd).1
    have hndt : t.Nodup := (List.nodup_cons.mp hnd).2
    cases h with
    | cons _ h2 =>
      have hat : a ∈ t := h2.subset (by simp)
      have hbt : b ∈ t := h2.subset (by simp)
      have hax : x ≠ a := fun hc => hxt (hc ▸ hat)
      have hbx : x ≠ b := fun hc => hxt (hc ▸ hbt)
      rw [List.indexOf_cons_ne _ hax, List.indexOf_cons_ne _ hbx]
      exact Nat.succ_lt_succ (ih hndt h2)
    | cons₂ c h2 =>
      have hbt : b ∈ t := h2.subset (by simp)
      have hba : a ≠ b := fun hc => hxt (hc ▸ hbt)
      rw [List.indexOf_cons_self, List.indexOf_cons_ne _ hba]
      exact Nat.succ_pos _

theorem no_ok_of_cycle {g : Graph Node} {seed l : List Node} (hseed : ValidSeed g seed)
    (hok : sort_graph g seed = .ok l) (hcyc : hasCycle g.edges) : False := by
  obtain ⟨hperm, hnd, htopo⟩ := sort_graph_ok hseed hok
  obtain ⟨b1, b2, b3⟩ := buildInDeg_spec g
  have hdestl : ∀ e ∈ g.edges, e.2 ∈ l := by
    intro e he
    apply hperm.mem_iff.mpr
    apply (b2 e.2).mpr
    exact Or.inr ⟨e, he, rfl⟩
  obtain ⟨n, htg⟩ := hcyc
  have key : ∀ a b : Node, Relation.TransGen (EdgeRel g.edges) a b →
      l.indexOf a < l.indexOf b := by
    intro a b h
    induction h with
    | single h1 =>
      exact indexOf_lt_of_pair_sublist hnd (htopo _ h1 (hdestl _ h1))
    | tail h1 h2 ih =>
      exact lt_trans ih (indexOf_lt_of_pair_sublist hnd (htopo _ h2 (hdestl _ h2)))
  exact absurd (key n n htg) (lt_irrefl _)

theorem buildInDeg_keys_perm_nodes {g : Graph Node} (hnd : g.nodes.Nodup)
    (hdest : ∀ e ∈ g.edges, e.2 ∈ g.nodes) :
    List.Perm (keysOf (buildInDeg g)) g.nodes := by
  obtain ⟨b1, b2, _⟩ := buildInDeg_spec g
  apply (List.perm_ext_iff_of_nodup b1 hnd).mpr
  intro k
  rw [b2 k]
  constructor
  · rintro (h | ⟨e, he, hk⟩)
    · exact h
    · exact hk ▸ hdest e he
  · exact Or.inl

theorem indep_mem_iff (g : Graph Node) (k : Node) :
    k ∈ independentNodes g ↔ k ∈ g.nodes ∧ countDest g.edges k = 0 := by
  unfold independentNodes
  rw [List.mem_filter, decide_eq_true_eq]

theorem countDest_pos {E : List (Node × Node)} {e : Node × Node} (he : e ∈ E) :
    countDest E e.2 ≠ 0 := by
  unfold countDest
  intro hc
  rw [List.countP_eq_zero] at hc
  exact hc e he (by simp)

/-- C3: for an acyclic graph with unique nodes, all edge endpoints among the
nodes, and any hash-iteration seed of the queue, the topological sort
succeeds and the stabilized order is a permutation of the nodes in which
every edge's source precedes its destination, every zero-in-degree node of
the original graph precedes every nonzero-in-degree node, and the
zero-in-degree nodes keep their original declaration order. -/
theorem acyclic_sort_stabilized (g : Graph Node) (seed : List Node)
    (hseed : ValidSeed g seed) (hnd : g.nodes.Nodup)
    (hwf : ∀ e ∈ g.edges, e.1 ∈ g.nodes ∧ e.2 ∈ g.nodes)
    (hacyc : ¬ hasCycle g.edges) :
    ∃ l, sort_graph g seed = .ok l ∧
      (stablize_topological_order g l).Perm g.nodes ∧
      (∀ e ∈ g.edges, List.Sublist [e.1, e.2] (stablize_topological_order g l)) ∧
      (∃ rest, stablize_topological_order g l = independentNodes g ++ rest ∧
        ∀ b ∈ rest, countDest g.edges b ≠ 0) ∧
      (stablize_topological_order g l).filter
          (fun k => decide (countDest g.edges k = 0)) =
        g.nodes.filter (fun k => decide (countDest g.edges k = 0)) := by
  cases hs : sort_graph g seed with
  | error L =>
    exfalso
    obtain ⟨hL, sorted, resid, hne, hperm2, hresid⟩ := sort_graph_err hseed hs
    apply hacyc
    apply cycle_of_all_preds hne
    intro k hk
    obtain ⟨e, he, hk2, hns⟩ := hresid k hk
    refine ⟨e.1, ?_, ?_⟩
    · have h1 : e.1 ∈ keysOf (buildInDeg g) := by
        obtain ⟨b1, b2, b3⟩ := buildInDeg_spec g
        exact (b2 e.1).mpr (Or.inl (hwf e he).1)
      have h2 : e.1 ∈ sorted ++ resid := hperm2.mem_iff.mpr h1
      rw [List.mem_append] at h2
      rcases h2 with h2 | h2
      · exact absurd h2 hns
      · exact h2
    · rw [← hk2, Prod.mk.eta]
      exact he
  | ok l =>
    obtain ⟨hpermK, hndl, htopo⟩ := sort_graph_ok hseed hs
    have hKn : List.Perm (keysOf (buildInDeg g)) g.nodes :=
      buildInDeg_keys_perm_nodes hnd (fun e he => (hwf e he).2)
    have hl : l.Perm g.nodes := hpermK.trans hKn
    have hdestl : ∀ e ∈ g.edges, e.2 ∈ l := fun e he => hl.mem_iff.mpr ((hwf e he).2)
    have hstab : stablize_topological_order g l =
        independentNodes g ++ l.filter (fun k => decide (k ∉ independentNodes g)) := rfl
    have hrest : ∀ b ∈ l.filter (fun k => decide (k ∉ independentNodes g)),
        countDest g.edges b ≠ 0 := by
      intro b hb
      rw [List.mem_filter, decide_eq_true_eq] at hb
      obtain ⟨hbl, hbni⟩ := hb
      have hbn : b ∈ g.nodes := hl.mem_iff.mp hbl
      intro hc
      exact hbni ((indep_mem_iff g b).mpr ⟨hbn, hc⟩)
    have hfcongr : g.nodes.filter (fun k => decide (k ∉ independentNodes g)) =
        g.nodes.filter (fun k => !(decide (countDest g.edges k = 0))) := by
      apply List.filter_congr
      intro k hk
      by_cases hc : countDest g.edges k = 0
      · have hki : k ∈ independentNodes g := (indep_mem_iff g k).mpr ⟨hk, hc⟩
        simp [hki, hc]
      · have hki : k ∉ independentNodes g := fun hm => hc ((indep_mem_iff g k).mp hm).2
        simp [hki, hc]
    have hfilperm : (l.filter (fun k => decide (k ∉ independentNodes g))).Perm
        (g.nodes.filter (fun k => decide (k ∉ independentNodes g))) := hl.filter _
    have hpermnodes : (stablize_topological_order g l).Perm g.nodes := by
      rw [hstab]
      refine List.Perm.trans (List.Perm.append_left _ hfilperm) ?_
      rw [hfcongr]
      exact List.filter_append_perm _ g.nodes
    have hedge : ∀ e ∈ g.edges,
        List.Sublist [e.1, e.2] (stablize_topological_order g l) := by
      intro e he
      have hd2 : countDest g.edges e.2 ≠ 0 := countDest_pos he
      have hbni : e.2 ∉ independentNodes g :=
        fun hm => hd2 ((indep_mem_iff g e.2).mp hm).2
      have he2l : e.2 ∈ l := hdestl e he
      rw [hstab]
      by_cases ha : e.1 ∈ independentNodes g
      · have h1 : List.Sublist [e.1] (independentNodes g) :=
          List.singleton_sublist.mpr ha
        have h2 : List.Sublist [e.2]
            (l.filter (fun k => decide (k ∉ independentNodes g))) := by
          apply List.singleton_sublist.mpr
          rw [List.mem_filter, decide_eq_true_eq]
          exact ⟨he2l, hbni⟩
        exact List.Sublist.append h1 h2
      · have hsub : List.Sublist [e.1, e.2] l := htopo e he he2l
        have hsub2 := hsub.filter (fun k => decide (k ∉ independentNodes g))
        have hfl : [e.1, e.2].filter (fun k => decide (k ∉ independentNodes g)) =
            [e.1, e.2] := by
          rw [List.filter_cons, List.filter_cons, List.filter_nil,
            if_pos (by simpa using ha), if_pos (by simpa using hbni)]
        rw [hfl] at hsub2
        exact List.Sublist.trans hsub2 (List.sublist_append_right _ _)
    have hfeq : (stablize_topological_order g l).filter
        (fun k => decide (countDest g.edges k = 0)) =
        g.nodes.filter (fun k => decide (countDest g.edges k = 0)) := by
      rw [hstab, List.filter_append]
      have h1 : (independentNodes g).filter
          (fun k => decide (countDest g.edges k = 0)) = independentNodes g := by
        apply List.filter_eq_self.mpr
        intro a ha
        rw [decide_eq_true_eq]
        exact ((indep_mem_iff g a).mp ha).2
      have h2 : (l.filter (fun k => decide (k ∉ independentNodes g))).filter
          (fun k => decide (countDest g.edges k = 0)) = [] := by
        rw [List.filter_eq_nil_iff]
        intro a ha
        rw [decide_eq_true_eq]
        exact hrest a ha
      rw [h1, h2, List.append_nil]
      rfl
    exact ⟨l, rfl, hpermnodes, hedge, ⟨_, hstab, hrest⟩, hfeq⟩

theorem acyclic_sort_stabilized_witness :
    (ValidSeed (Graph.mk [0, 1] [((0 : Nat), 1)]) [0] ∧
      (Graph.mk [0, 1] [((0 : Nat), 1)]).nodes.Nodup ∧
      (∀ e ∈ (Graph.mk [0, 1] [((0 : Nat), 1)]).edges,
        e.1 ∈ (Graph.mk [0, 1] [((0 : Nat), 1)]).nodes ∧
        e.2 ∈ (Graph.mk [0, 1] [((0 : Nat), 1)]).nodes) ∧
      ¬ hasCycle [((0 : Nat), 1)]) ∧
    (∃ l, sort_graph (Graph.mk [0, 1] [((0 : Nat), 1)]) [0] = .ok l ∧
      (stablize_topological_order (Graph.mk [0, 1] [((0 : Nat), 1)]) l).Perm
        (Graph.mk [0, 1] [((0 : Nat), 1)]).nodes ∧
      (∀ e ∈ (Graph.mk [0, 1] [((0 : Nat), 1)]).edges, List.Sublist [e.1, e.2]
        (stablize_topological_order (Graph.mk [0, 1] [((0 : Nat), 1)]) l)) ∧
      (∃ rest, stablize_topological_order (Graph.mk [0, 1] [((0 : Nat), 1)]) l =
          independentNodes (Graph.mk [0, 1] [((0 : Nat), 1)]) ++ rest ∧
        ∀ b ∈ rest, countDest (Graph.mk [0, 1] [((0 : Nat), 1)]).edges b ≠ 0) ∧
      (stablize_topological_order (Graph.mk [0, 1] [((0 : Nat), 1)]) l).filter
          (fun k => decide (countDest (Graph.mk [0, 1] [((0 : Nat), 1)]).edges k = 0)) =
        (Graph.mk [0, 1] [((0 : Nat), 1)]).nodes.filter
          (fun k => decide (countDest (Graph.mk [0, 1] [((0 : Nat), 1)]).edges k = 0))) :=
  ⟨⟨by decide, by decide, by decide, no_cycle_single_edge (by decide)⟩,
    acyclic_sort_stabilized (Graph.mk [0, 1] [((0 : Nat), 1)]) [0] (by decide)
      (by decide) (by decide) (no_cycle_single_edge (by decide))⟩

/-! ### The questions-file pipeline of `get_answers` -/

/-- The dependency graph `get_answers` builds from a questions file: nodes
are the question keys, edges the parsed dependency references. -/
def questionGraph (file : QuestionsFile) : Graph String :=
  Graph.mk (file.map (·.1)) (adjacency_list_from_file file)

/-- The ordering prefix of `get_answers`: topological sort of the question
graph, then stabilization; a sort error propagates. -/
def question_order (file : QuestionsFile) (seed : List String) :
    Except (List (String × String)) (List String) :=
  match sort_graph (questionGraph file) seed with
  | .error L => .error L
  | .ok order => .ok (stablize_topological_order (questionGraph file) order)

/-- `IndexMap::insert`: replace in place if the key is present, else append. -/
def insertAnswer (answers : List (String × Answer)) (k : String) (v : Answer) :
    List (String × Answer) :=
  if k ∈ answers.map (·.1) then
    answers.map (fun p => if p.1 = k then (p.1, v) else p)
  else answers ++ [(k, v)]

/-- `prompt.rs::try_prompt`, with the interactive `inquire` prompts
abstracted by total answer oracles (modelling runs on which every prompt
succeeds): `Text`/`Paragraph` store the string answer, `Confirm` the
boolean, and `Select`/`MultiSelect` store an answer only when `choices` is
present. -/
def try_prompt (oText : String → Question → String) (oBool : String → Question → Bool)
    (oMulti : String → Question → List String) (question : String) (config : Question)
    (answers : List (String × Answer)) : List (String × Answer) :=
  match config.qtype with
  | .Text => insertAnswer answers question (.String (oText question config))
  | .Paragraph => insertAnswer answers question (.String (oText question config))
  | .Confirm => insertAnswer answers question (.Bool (oBool question config))
  | .Select =>
      match config.choices with
      | some _ => insertAnswer answers question (.String (oText question config))
      | none => answers
  | .MultiSelect =>
      match config.choices with
      | some _ => insertAnswer answers question (.Array (oMulti question config))
      | none => answers

/-- `prompt.rs::get_answers` after the file has been parsed: build the
question graph, topologically sort it (a `CycleDetected` error aborts the
run here), stabilize the order, then walk the questions, prompting exactly
those whose dependency expression is satisfied by the answers so far. -/
def get_answers (oText : String → Question → String) (oBool : String → Question → Bool)
    (oMulti : String → Question → List String) (file : QuestionsFile)
    (seed : List String) : Except (List (String × String)) (List (String × Answer)) :=
  match sort_graph (questionGraph file) seed with
  | .error L => .error L
  | .ok order =>
      .ok ((stablize_topological_order (questionGraph file) order).foldl
        (fun answers question_name =>
          match List.lookup question_name file with
          | some config =>
              if should_prompt config.raw_dependency answers then
                try_prompt oText oBool oMulti question_name config answers
              else answers
          | none => answers) [])

theorem get_answers_err_of_sort_err (file : QuestionsFile) (seed : List String)
    (oT : String → Question → String) (oB : String → Question → Bool)
    (oM : String → Question → List String) (L : List (String × String))
    (h : sort_graph (questionGraph file) seed = .error L) :
    question_order file seed = .error L ∧
    get_answers oT oB oM file seed = .error L := by
  unfold question_order get_answers
  rw [h]
  exact ⟨rfl, rfl⟩

/-- A sort error on a graph whose edge sources are all nodes exhibits a
cycle: every residual node keeps an in-edge from another residual node. -/
theorem cycle_of_sort_err {g : Graph Node} {seed : List Node}
    {L : List (Node × Node)} (hseed : ValidSeed g seed)
    (hsrc : ∀ e ∈ g.edges, e.1 ∈ g.nodes)
    (h : sort_graph g seed = .error L) : hasCycle g.edges := by
  obtain ⟨hLe, sorted, resid, hne, hperm2, hresid⟩ := sort_graph_err hseed h
  apply cycle_of_all_preds hne
  intro k hk
  obtain ⟨e, he, hk2, hns⟩ := hresid k hk
  refine ⟨e.1, ?_, ?_⟩
  · have h1 : e.1 ∈ keysOf (buildInDeg g) := by
      obtain ⟨b1, b2, b3⟩ := buildInDeg_spec g
      exact (b2 e.1).mpr (Or.inl (hsrc e he))
    have h2 : e.1 ∈ sorted ++ resid := hperm2.mem_iff.mpr h1
    rw [List.mem_append] at h2
    rcases h2 with h2 | h2
    · exact absurd h2 hns
    · exact h2
  · rw [← hk2, Prod.mk.eta]
    exact he

/-- C4 (amended): for graphs whose edge sources are all declared nodes the
sort fails with `CycleDetected` exactly when the graph has a cycle; the
error payload is always the full edge list; and at the questions-file level
a sort error is returned by `get_answers` before any prompting happens. -/
theorem cycle_detected_iff (g : Graph Node) (seed : List Node)
    (hseed : ValidSeed g seed) (hsrc : ∀ e ∈ g.edges, e.1 ∈ g.nodes) :
    ((∃ L, sort_graph g seed = .error L) ↔ hasCycle g.edges) ∧
    (∀ L, sort_graph g seed = .error L → L = g.edges) ∧
    (∀ (file : QuestionsFile) (seed2 : List String)
      (oT : String → Question → String) (oB : String → Question → Bool)
      (oM : String → Question → List String) (L2 : List (String × String)),
      sort_graph (questionGraph file) seed2 = .error L2 →
        get_answers oT oB oM file seed2 = .error L2) := by
  refine ⟨⟨?_, ?_⟩, ?_, ?_⟩
  · rintro ⟨L, hL⟩
    exact cycle_of_sort_err hseed hsrc hL
  · intro hcyc
    cases hs : sort_graph g seed with
    | ok l => exact (no_ok_of_cycle hseed hs hcyc).elim
    | error L =>
      refine ⟨L, rfl⟩
  · intro L hL
    exact (sort_graph_err hseed hL).1
  · intro file seed2 oT oB oM L2 h2
    exact (get_answers_err_of_sort_err file seed2 oT oB oM L2 h2).2

/-- C4 counterexample: an acyclic graph whose single edge has a source that
is neither a node nor any edge's destination; the sort still reports
`CycleDetected`, so the failure is not equivalent to the presence of a
cycle. -/
theorem cycle_detected_counterexample :
    sort_graph (Graph.mk [0] [((1 : Nat), 0)]) [] = .error [((1 : Nat), 0)] ∧
    ValidSeed (Graph.mk [0] [((1 : Nat), 0)]) [] ∧
    ¬ hasCycle [((1 : Nat), 0)] := by
  refine ⟨?_, by decide, no_cycle_single_edge (by decide)⟩
  rw [show sort_graph (Graph.mk [0] [((1 : Nat), 0)]) [] =
    (if (kahnLoop (depsOf [((1 : Nat), 0)])
        (buildInDeg (Graph.mk [0] [((1 : Nat), 0)])) ([] : List Nat) []).2.isEmpty
      then .ok (kahnLoop (depsOf [((1 : Nat), 0)])
        (buildInDeg (Graph.mk [0] [((1 : Nat), 0)])) ([] : List Nat) []).1
      else .error [((1 : Nat), 0)]) from rfl]
  rw [kahnLoop_nil]
  rfl

theorem cycle_detected_iff_witness :
    (ValidSeed (Graph.mk [0, 1] [((0 : Nat), 1), (1, 0)]) [] ∧
      (∀ e ∈ (Graph.mk [0, 1] [((0 : Nat), 1), (1, 0)]).edges,
        e.1 ∈ (Graph.mk [0, 1] [((0 : Nat), 1), (1, 0)]).nodes)) ∧
    (((∃ L, sort_graph (Graph.mk [0, 1] [((0 : Nat), 1), (1, 0)]) [] = .error L) ↔
        hasCycle [((0 : Nat), 1), (1, 0)]) ∧
      (∀ L, sort_graph (Graph.mk [0, 1] [((0 : Nat), 1), (1, 0)]) [] = .error L →
        L = [((0 : Nat), 1), (1, 0)]) ∧
      (∀ (file : QuestionsFile) (seed2 : List String)
        (oT : String → Question → String) (oB : String → Question → Bool)
        (oM : String → Question → List String) (L2 : List (String × String)),
        sort_graph (questionGraph file) seed2 = .error L2 →
          get_answers oT oB oM file seed2 = .error L2)) :=
  ⟨⟨by decide, by decide⟩,
    cycle_detected_iff (Graph.mk [0, 1] [((0 : Nat), 1), (1, 0)]) [] (by decide)
      (by decide)⟩

/-- C2 (amended): a dependency reference whose target identifier is not any
question's key yields an edge whose source is outside the in-degree map's
key set, so the topological sort — and with it `get_answers` — fails with
`CycleDetected` carrying the full edge list, before any question is asked;
the unresolved reference does not merely evaluate as unsatisfied. -/
theorem unresolved_reference_aborts (file : QuestionsFile) (seed : List String)
    (oT : String → Question → String) (oB : String → Question → Bool)
    (oM : String → Question → List String)
    (hseed : ValidSeed (questionGraph file) seed)
    (q : String × Question) (hq : q ∈ file) (d : String)
    (hd : d ∈ depStrings q.2.raw_dependency) (r v : String)
    (hsplit : split_once d = some (r, v)) (hghost : r ∉ file.map (·.1)) :
    question_order file seed = .error (adjacency_list_from_file file) ∧
    get_answers oT oB oM file seed = .error (adjacency_list_from_file file) := by
  have hedge : (r, q.1) ∈ adjacency_list_from_file file := by
    unfold adjacency_list_from_file
    rw [List.mem_flatMap]
    refine ⟨q, hq, ?_⟩
    rw [List.mem_filterMap]
    refine ⟨d, hd, ?_⟩
    rw [hsplit]
    rfl
  obtain ⟨b1, b2, b3⟩ := buildInDeg_spec (questionGraph file)
  have hrK : r ∉ keysOf (buildInDeg (questionGraph file)) := by
    intro hmem
    rcases (b2 r).mp hmem with h | ⟨e, he, hk⟩
    · exact hghost h
    · apply hghost
      obtain ⟨qe, hqe, hq2⟩ := adjacency_dest_mem file e he
      rw [← hk, hq2]
      exact List.mem_map_of_mem (·.1) hqe
  cases hs : sort_graph (questionGraph file) seed with
  | ok l =>
    exfalso
    obtain ⟨hperm, hnd, htopo⟩ := sort_graph_ok hseed hs
    have hq1K : q.1 ∈ keysOf (buildInDeg (questionGraph file)) :=
      (b2 q.1).mpr (Or.inl (List.mem_map_of_mem (·.1) hq))
    have hq1l : q.1 ∈ l := hperm.mem_iff.mpr hq1K
    have hsub := htopo (r, q.1) hedge hq1l
    have hrl : r ∈ l := hsub.subset (by simp)
    exact hrK (hperm.mem_iff.mp hrl)
  | error L =>
    have hLe : L = (questionGraph file).edges := (sort_graph_err hseed hs).1
    rw [hLe] at hs
    exact get_answers_err_of_sort_err file seed oT oB oM _ hs

/-- Evaluate kahnLoop with an explicit structural fuel; agrees with
`kahnLoop` whenever the fuel dominates `m.length + q.length`. -/
def kahnLoopFuel (dep : Node → List Node) : Nat → List (Node × Nat) → List Node →
    List Node → List Node × List (Node × Nat)
  | _, m, [], sorted => (sorted, m)
  | 0, m, _ :: _, sorted => (sorted, m)
  | fuel + 1, m, n :: q, sorted =>
      kahnLoopFuel dep fuel (stepNeighbors (removeKey m n) (dep n)).1
        (q ++ (stepNeighbors (removeKey m n) (dep n)).2) (sorted ++ [n])

theorem kahnLoopFuel_eq (dep : Node → List Node) :
    ∀ (fuel : Nat) (m : List (Node × Nat)) (q sorted : List Node),
      m.length + q.length ≤ fuel →
      kahnLoopFuel dep fuel m q sorted = kahnLoop dep m q sorted := by
  intro fuel
  induction fuel with
  | zero =>
    intro m q sorted hlen
    have hq : q = [] := List.eq_nil_of_length_eq_zero (by omega)
    subst hq
    rw [kahnLoop_nil]
    rfl
  | succ fuel ih =>
    intro m q sorted hlen
    cases q with
    | nil =>
      rw [kahnLoop_nil]
      rfl
    | cons n q =>
      rw [kahnLoop_cons]
      rw [show kahnLoopFuel dep (fuel + 1) m (n :: q) sorted =
        kahnLoopFuel dep fuel (stepNeighbors (removeKey m n) (dep n)).1
          (q ++ (stepNeighbors (removeKey m n) (dep n)).2) (sorted ++ [n]) from rfl]
      apply ih
      have h1 := stepNeighbors_length (removeKey m n) (dep n)
      have h2 : (removeKey m n).length ≤ m.length := List.length_filter_le _ _
      rw [List.length_append]
      simp only [List.length_cons] at hlen
      omega

theorem sort_graph_eval (g : Graph Node) (seed : List Node) :
    sort_graph g seed =
      (if (kahnLoopFuel (depsOf g.edges) ((buildInDeg g).length + seed.length)
          (buildInDeg g) seed.reverse []).2.isEmpty
        then .ok (kahnLoopFuel (depsOf g.edges) ((buildInDeg g).length + seed.length)
          (buildInDeg g) seed.reverse []).1
        else .error g.edges) := by
  have heq := kahnLoopFuel_eq (depsOf g.edges) ((buildInDeg g).length + seed.length)
    (buildInDeg g) seed.reverse [] (by rw [List.length_reverse])
  rw [show sort_graph g seed =
    (if (kahnLoop (depsOf g.edges) (buildInDeg g) seed.reverse []).2.isEmpty
      then .ok (kahnLoop (depsOf g.edges) (buildInDeg g) seed.reverse []).1
      else .error g.edges) from rfl]
  rw [← heq]

/-- C2 counterexample: a single question depending on an identifier that is
not any question's key; instead of the reference evaluating as unsatisfied
and collection proceeding, the ordering step fails with `CycleDetected`
(even though the dependency predicate itself would just be false). -/
theorem unresolved_reference_counterexample :
    question_order
        [("q", Question.mk .Confirm "" none (some (.Condition "ghost:true")))] [] =
      .error [("ghost", "q")] ∧
    ValidSeed (questionGraph
      [("q", Question.mk .Confirm "" none (some (.Condition "ghost:true")))]) [] ∧
    check_dependency "ghost:true" [] = false := by
  refine ⟨?_, by decide, by decide⟩
  unfold question_order
  rw [sort_graph_eval]
  rfl

theorem unresolved_reference_aborts_witness :
    (ValidSeed (questionGraph
        [("q", Question.mk .Confirm "" none (some (.Condition "ghost:true")))]) [] ∧
      ("q", Question.mk .Confirm "" none (some (.Condition "ghost:true"))) ∈
        [("q", Question.mk .Confirm "" none (some (.Condition "ghost:true")))] ∧
      "ghost:true" ∈ depStrings ("q", Question.mk .Confirm "" none
        (some (.Condition "ghost:true"))).2.raw_dependency ∧
      split_once "ghost:true" = some ("ghost", "true") ∧
      "ghost" ∉ List.map (·.1)
        [("q", Question.mk .Confirm "" none (some (.Condition "ghost:true")))]) ∧
    (question_order
        [("q", Question.mk .Confirm "" none (some (.Condition "ghost:true")))] [] =
      .error (adjacency_list_from_file
        [("q", Question.mk .Confirm "" none (some (.Condition "ghost:true")))]) ∧
    get_answers (fun _ _ => "") (fun _ _ => true) (fun _ _ => [])
        [("q", Question.mk .Confirm "" none (some (.Condition "ghost:true")))] [] =
      .error (adjacency_list_from_file
        [("q", Question.mk .Confirm "" none (some (.Condition "ghost:true")))])) :=
  ⟨⟨by decide, by decide, by decide, by decide, by decide⟩,
    unresolved_reference_aborts
      [("q", Question.mk .Confirm "" none (some (.Condition "ghost:true")))] []
      (fun _ _ => "") (fun _ _ => true) (fun _ _ => []) (by decide)
      ("q", Question.mk .Confirm "" none (some (.Condition "ghost:true"))) (by decide)
      "ghost:true" (by decide) "ghost" "true" (by decide) (by decide)⟩

/-- C9 (amended): two successful runs on the same graph under different
hash-iteration orders produce stabilized orders that are permutations of
each other and share the deterministic independent-node prefix; only the
relative order of the dependent nodes may differ. -/
theorem stabilized_prefix_deterministic (g : Graph Node) (s1 s2 l1 l2 : List Node)
    (h1 : ValidSeed g s1) (h2 : ValidSeed g s2)
    (hok1 : sort_graph g s1 = .ok l1) (hok2 : sort_graph g s2 = .ok l2) :
    (stablize_topological_order g l1).Perm (stablize_topological_order g l2) ∧
    ∃ r1 r2, stablize_topological_order g l1 = independentNodes g ++ r1 ∧
      stablize_topological_order g l2 = independentNodes g ++ r2 ∧ r1.Perm r2 := by
  obtain ⟨hp1, hnd1, htopo1⟩ := sort_graph_ok h1 hok1
  obtain ⟨hp2, hnd2, htopo2⟩ := sort_graph_ok h2 hok2
  have hl : l1.Perm l2 := hp1.trans hp2.symm
  have hfil : (l1.filter (fun k => decide (k ∉ independentNodes g))).Perm
      (l2.filter (fun k => decide (k ∉ independentNodes g))) := hl.filter _
  exact ⟨List.Perm.append_left _ hfil, _, _, rfl, rfl, hfil⟩

/-- C9 counterexample: two valid hash-iteration orders for the same graph
yield different stabilized orders, so ties between incomparable dependent
questions are not broken deterministically. -/
theorem stabilized_order_counterexample :
    ValidSeed (Graph.mk [0, 1, 2, 3] [((0 : Nat), 2), (1, 3)]) [0, 1] ∧
    ValidSeed (Graph.mk [0, 1, 2, 3] [((0 : Nat), 2), (1, 3)]) [1, 0] ∧
    ∃ l1 l2,
      sort_graph (Graph.mk [0, 1, 2, 3] [((0 : Nat), 2), (1, 3)]) [0, 1] = .ok l1 ∧
      sort_graph (Graph.mk [0, 1, 2, 3] [((0 : Nat), 2), (1, 3)]) [1, 0] = .ok l2 ∧
      stablize_topological_order (Graph.mk [0, 1, 2, 3] [((0 : Nat), 2), (1, 3)]) l1 ≠
        stablize_topological_order (Graph.mk [0, 1, 2, 3] [((0 : Nat), 2), (1, 3)]) l2 := by
  refine ⟨by decide, by decide, [1, 0, 3, 2], [0, 1, 2, 3], ?_, ?_, by decide⟩
  · rw [sort_graph_eval]
    rfl
  · rw [sort_graph_eval]
    rfl

theorem stabilized_prefix_deterministic_witness :
    (ValidSeed (Graph.mk [0, 1, 2, 3] [((0 : Nat), 2), (1, 3)]) [0, 1] ∧
      ValidSeed (Graph.mk [0, 1, 2, 3] [((0 : Nat), 2), (1, 3)]) [1, 0] ∧
      sort_graph (Graph.mk [0, 1, 2, 3] [((0 : Nat), 2), (1, 3)]) [0, 1] =
        .ok [1, 0, 3, 2] ∧
      sort_graph (Graph.mk [0, 1, 2, 3] [((0 : Nat), 2), (1, 3)]) [1, 0] =
        .ok [0, 1, 2, 3]) ∧
    ((stablize_topological_order (Graph.mk [0, 1, 2, 3] [((0 : Nat), 2), (1, 3)])
        [1, 0, 3, 2]).Perm
      (stablize_topological_order (Graph.mk [0, 1, 2, 3] [((0 : Nat), 2), (1, 3)])
        [0, 1, 2, 3]) ∧
    ∃ r1 r2,
      stablize_topological_order (Graph.mk [0, 1, 2, 3] [((0 : Nat), 2), (1, 3)])
          [1, 0, 3, 2] =
        independentNodes (Graph.mk [0, 1, 2, 3] [((0 : Nat), 2), (1, 3)]) ++ r1 ∧
      stablize_topological_order (Graph.mk [0, 1, 2, 3] [((0 : Nat), 2), (1, 3)])
          [0, 1, 2, 3] =
        independentNodes (Graph.mk [0, 1, 2, 3] [((0 : Nat), 2), (1, 3)]) ++ r2 ∧
      r1.Perm r2) :=
  ⟨⟨by decide, by decide, by rw [sort_graph_eval]; rfl, by rw [sort_graph_eval]; rfl⟩,
    stabilized_prefix_deterministic (Graph.mk [0, 1, 2, 3] [((0 : Nat), 2), (1, 3)])
      [0, 1] [1, 0] [1, 0, 3, 2] [0, 1, 2, 3] (by decide) (by decide)
      (by rw [sort_graph_eval]; rfl) (by rw [sort_graph_eval]; rfl)⟩

end Kopye
